import Mathlib

/-!
Shallow embedding of the Kangourou knot puzzle solver
(src/routes/puzzle.js) and verification of the specification claims.

Conventions of the embedding:
* JS `BigInt` bitmasks become `Nat` (arbitrary precision, bitwise ops
  `&&&`, `|||`, `^^^`, `<<<`).
* JS `a & ~b` (AND-NOT on BigInt) becomes `andNot a b = a ^^^ (a &&& b)`,
  which agrees bit-by-bit.
* The recursive solver `solve0` mutates a shared state object in JS; here
  the state is threaded explicitly.  Each JS call of `solve0` consumes one
  unit of `fuel`; `none` means the fuel bound was hit.  (The JS recursion
  genuinely diverges for width-0 boards, so a totality proof is impossible
  without fuel.)
* Tile coordinates are natural numbers.  A negative coordinate makes the
  JS constructor throw (`BigInt` shift by a negative amount), so no claim
  concerns them.
-/

namespace KKP

/-- JS `a & ~b` on BigInt: keep the bits of `a` that are not in `b`. -/
def andNot (a b : Nat) : Nat := a ^^^ (a &&& b)

/-- One piece geometry: the per-row bit masks of the four rotations
(`rotations.get r` lists one small mask per row, lowest bit = leftmost
cell), and the number of occupied fine cells. -/
structure Piece where
  rotations : List (List Nat)
  tileCount : Nat
deriving Repr, DecidableEq

/-- `isSet mask x y` from puzzle.js: bit `(y * 2 + x)` of the base mask. -/
def isSet (mask x y : Nat) : Nat :=
  if mask &&& (1 <<< (y * 2 + x)) ≠ 0 then 1 else 0

/-- The rotation/row table computed for one base mask, exactly as in the
`pieces` initializer of puzzle.js. -/
def mkPiece (mask : Nat) : Piece :=
  let rotations : List (List Nat) :=
    [ [ isSet mask 0 0 ||| isSet mask 1 0 <<< 1,
        isSet mask 0 1 ||| isSet mask 1 1 <<< 1,
        isSet mask 0 2 ||| isSet mask 1 2 <<< 1,
        isSet mask 0 3 ||| isSet mask 1 3 <<< 1 ],
      [ isSet mask 1 0 ||| isSet mask 1 1 <<< 1 ||| isSet mask 1 2 <<< 2 ||| isSet mask 1 3 <<< 3,
        isSet mask 0 0 ||| isSet mask 0 1 <<< 1 ||| isSet mask 0 2 <<< 2 ||| isSet mask 0 3 <<< 3 ],
      [ isSet mask 1 3 ||| isSet mask 0 3 <<< 1,
        isSet mask 1 2 ||| isSet mask 0 2 <<< 1,
        isSet mask 1 1 ||| isSet mask 0 1 <<< 1,
        isSet mask 1 0 ||| isSet mask 0 0 <<< 1 ],
      [ isSet mask 0 3 ||| isSet mask 0 2 <<< 1 ||| isSet mask 0 1 <<< 2 ||| isSet mask 0 0 <<< 3,
        isSet mask 1 3 ||| isSet mask 1 2 <<< 1 ||| isSet mask 1 1 <<< 2 ||| isSet mask 1 0 <<< 3 ] ]
  let tileCount : Nat := (List.range 8).countP (fun i => mask &&& (1 <<< i) != 0)
  { rotations := rotations, tileCount := tileCount }

/-- The five base masks of puzzle.js (`Pos00 = 1, Pos01 = 2, Pos10 = 4,
Pos11 = 8, Pos20 = 16, Pos21 = 32, Pos30 = 64, Pos31 = 128`):
piece 0 = Pos10+Pos21, piece 1 = Pos00+Pos10+Pos21,
piece 2 = Pos00+Pos01+Pos10+Pos21, piece 3 = Pos00+Pos10+Pos21+Pos31,
piece 4 = Pos00+Pos01+Pos10+Pos21+Pos31. -/
def pieces : List Piece :=
  [4 ||| 32,
   1 ||| 4 ||| 32,
   1 ||| 2 ||| 4 ||| 32,
   1 ||| 4 ||| 32 ||| 128,
   1 ||| 2 ||| 4 ||| 32 ||| 128].map mkPiece

/-- Flattening of one rotation into a board-wide mask with row stride
`2 * width`: the JS reduce `(s, m, index) => s | (m << 2*index*width)`. -/
def flattenRot (width : Nat) (rotation : List Nat) : Nat :=
  rotation.enum.foldl (fun s p => s ||| (p.2 <<< (2 * p.1 * width))) 0

/-- The width-specific rotation masks of one piece, with the JS
deduplication `if (rotations[0] === rotations[2]) rotations.splice(2, 2)`
(dropping the entries at indices 2 and 3). -/
def boardRotations (width : Nat) (piece : Piece) : List Nat :=
  let rotations := piece.rotations.map (flattenRot width)
  if rotations.getD 0 0 = rotations.getD 2 0 then rotations.take 2 else rotations

/-- The width-specific piece table computed in the constructor. -/
def boardPieces (width : Nat) : List (List Nat) :=
  pieces.map (boardRotations width)

/-- The four fine-cell bits of coarse tile `(x, y)` on a board of the
given width: `p, p+1, p+2*width, p+2*width+1` with `p = 4*y*width+2*x`. -/
def tileBits (width x y : Nat) : Nat :=
  let p := 4 * y * width + 2 * x
  (1 <<< p) ||| (1 <<< (p + 1)) ||| (1 <<< (p + 2 * width)) ||| (1 <<< (p + 2 * width + 1))

/-- The board model: result of the `KangourouKnotPuzzle` constructor
(numeric form: width, height, list of coarse-tile coordinates). -/
structure Puzzle where
  width : Nat
  height : Nat
  mask : Nat
  tileCount : Nat
  pieces : List (List Nat)
deriving Repr, DecidableEq

/-- One step of the membership-mask construction loop: skip the
coordinate (with a warning in JS) when its anchor bit is already set,
otherwise OR in its four fine-cell bits and add 4 to the count.
Note: the JS loop performs no bounds check here. -/
def addCoord (width : Nat) (acc : Nat × Nat) (xy : Nat × Nat) : Nat × Nat :=
  let p := 4 * xy.2 * width + 2 * xy.1
  if acc.1 &&& (1 <<< p) ≠ 0 then acc
  else (acc.1 ||| tileBits width xy.1 xy.2, acc.2 + 4)

/-- The constructor, numeric form. -/
def mkPuzzle (width height : Nat) (tileCoordinates : List (Nat × Nat)) : Puzzle :=
  let mt := tileCoordinates.foldl (addCoord width) (0, 0)
  { width := width, height := height, mask := mt.1, tileCount := mt.2,
    pieces := boardPieces width }

/-- `isEmpty x y`: the anchor fine-cell bit of tile `(x, y)` is not in the
membership mask. -/
def Puzzle.isEmpty (P : Puzzle) (x y : Nat) : Bool :=
  P.mask &&& (1 <<< (4 * y * P.width + 2 * x)) = 0

/-- `isComplete s x y`: all four fine-cell bits of tile `(x, y)` are
covered by `s`. -/
def Puzzle.isComplete (P : Puzzle) (s x y : Nat) : Bool :=
  s &&& tileBits P.width x y = tileBits P.width x y

/-- One move `[x, y, i, j]`: piece type `i` with rotation index `j`
anchored at coarse tile `(x, y)`. -/
structure Move where
  x : Nat
  y : Nat
  i : Nat
  j : Nat
deriving Repr, DecidableEq

/-- The board-shifted footprint of a move: rotation mask `j` of piece `i`
shifted left by `4*y*width + 2*x`. -/
def moveFoot (P : Puzzle) (mv : Move) : Nat :=
  ((P.pieces.getD mv.i []).getD mv.j 0) <<< (4 * mv.y * P.width + 2 * mv.x)

/-- The mutable search state of JS `solve0`, threaded explicitly. -/
structure SState where
  pieceCounts : List Nat
  s : Nat
  moves : List Move
  solutions : List (List Move)
deriving Repr, DecidableEq

/-- `pieceCounts[i]--` on the counter list. -/
def decAt (l : List Nat) (i : Nat) : List Nat := l.set i (l.getD i 0 - 1)

/-- `pieceCounts[i]++` on the counter list. -/
def incAt (l : List Nat) (i : Nat) : List Nat := l.set i (l.getD i 0 + 1)

/-- The body of the inner rotation loop of `solve0` for one pair
`(i, j)`: skip on overlap with the coverage, skip on spill outside the
membership mask, otherwise place the piece, recurse (`rec`), record a
solution if the recursion signalled a leaf, and undo the placement. -/
def tryPlace (rec : SState → Option (Bool × SState)) (P : Puzzle)
    (x y i j : Nat) (st : SState) : Option SState :=
  let m := moveFoot P ⟨x, y, i, j⟩
  if st.s &&& m ≠ 0 then some st
  else if andNot m P.mask ≠ 0 then some st
  else
    let st1 : SState :=
      { pieceCounts := decAt st.pieceCounts i,
        s := st.s ||| m,
        moves := st.moves ++ [⟨x, y, i, j⟩],
        solutions := st.solutions }
    (rec st1).bind (fun r =>
      let st3 := cond r.1
        { r.2 with solutions := r.2.solutions ++ [r.2.moves] } r.2
      some { pieceCounts := incAt st3.pieceCounts i,
             s := andNot st3.s m,
             moves := st3.moves.dropLast,
             solutions := st3.solutions })

/-- The rotation loop `for (let j = j0; j < rotations.length; j++)`. -/
def loopJ (rec : SState → Option (Bool × SState)) (P : Puzzle)
    (x y i : Nat) (js : List Nat) (st : SState) : Option SState :=
  js.foldlM (fun st j => tryPlace rec P x y i j st) st

/-- `sameCoords` of `solve0`: the most recently pushed move, if it is at
the coordinates being processed. -/
def lastSame (x y : Nat) (moves : List Move) : Option Move :=
  match moves.getLast? with
  | some mv => if mv.x = x && mv.y = y then some mv else none
  | none => none

/-- The starting rotation index for piece type `i`:
`sameCoords?.[2] === i ? sameCoords[3] : 0`. -/
def resumeJ (sameCoords : Option Move) (i : Nat) : Nat :=
  match sameCoords with
  | some mv => if mv.i = i then mv.j else 0
  | none => 0

/-- The starting piece-type index: `sameCoords?.[2] || 0`. -/
def resumeI (sameCoords : Option Move) : Nat :=
  match sameCoords with
  | some mv => mv.i
  | none => 0

/-- The piece-type loop `for (let i = i0; i < pieces.length; i++)` with
the `pieceCounts[i] === 0` skip. -/
def loopI (rec : SState → Option (Bool × SState)) (P : Puzzle)
    (sameCoords : Option Move) (x y : Nat) (is : List Nat) (st : SState) :
    Option SState :=
  is.foldlM
    (fun st i =>
      if st.pieceCounts.getD i 0 = 0 then some st
      else
        let j0 := resumeJ sameCoords i
        loopJ rec P x y i
          (List.range' j0 ((P.pieces.getD i []).length - j0)) st)
    st

/-- The recursive solver `solve0(state, x, y)`, one fuel unit per JS
call.  Returns `(true, state)` exactly when the scan ran off the last
row (a leaf); the enumeration branch always returns `false`. -/
def solve0 (P : Puzzle) : Nat → SState → Nat → Nat → Option (Bool × SState)
  | 0, _, _, _ => none
  | fuel + 1, st, x, y =>
    if P.width ≤ x then solve0 P fuel st 0 (y + 1)
    else if P.height ≤ y then some (true, st)
    else if P.isEmpty x y || P.isComplete st.s x y then solve0 P fuel st (x + 1) y
    else
      let sameCoords := lastSame x y st.moves
      let i0 := resumeI sameCoords
      (loopI (fun st1 => solve0 P fuel st1 x y) P sameCoords x y
          (List.range' i0 (P.pieces.length - i0)) st).map (fun st1 => (false, st1))

/-- The default piece-count preset used when `solve` is called without an
argument. -/
def defaultCounts : List Nat := [2, 6, 4, 2, 2]

/-- `pieceCounts.reduce((count, c, index) => count + c * pieces[index].tileCount, 0)`. -/
def pieceCountTotal (pieceCounts : List Nat) : Nat :=
  pieceCounts.enum.foldl
    (fun count p => count + p.2 * (pieces.getD p.1 (mkPiece 0)).tileCount) 0

/-- The entry point `solve(pieceCounts?)`.  With an explicit argument the
fast-fail check runs (consuming no fuel); with the argument omitted the
default preset is used and no check is performed. -/
def solve (P : Puzzle) (fuel : Nat) (pieceCounts? : Option (List Nat)) :
    Option (List (List Move)) :=
  match pieceCounts? with
  | some pieceCounts =>
      if P.tileCount ≠ pieceCountTotal pieceCounts then some []
      else (solve0 P fuel ⟨pieceCounts, 0, [], []⟩ 0 0).map (fun r => r.2.solutions)
  | none =>
      (solve0 P fuel ⟨defaultCounts, 0, [], []⟩ 0 0).map (fun r => r.2.solutions)

/-! ### Bitmask lemmas -/

theorem testBit_one_shift (p k : Nat) : (1 <<< p).testBit k = decide (p = k) := by
  rw [Nat.one_shiftLeft, Nat.testBit_two_pow]

theorem land_eq_left_iff {a b : Nat} :
    a &&& b = a ↔ ∀ k, a.testBit k = true → b.testBit k = true := by
  constructor
  · intro h k hk
    have h2 := congrArg (Nat.testBit · k) h
    simp only [Nat.testBit_land, hk, Bool.true_and] at h2
    exact h2
  · intro h
    apply Nat.eq_of_testBit_eq
    intro k
    rw [Nat.testBit_land]
    cases h1 : a.testBit k
    · simp
    · simp [h k h1]

theorem land_lor_self_left (a b : Nat) : a &&& (a ||| b) = a := by
  apply Nat.eq_of_testBit_eq
  intro k
  rw [Nat.testBit_land, Nat.testBit_lor]
  cases a.testBit k <;> simp

theorem testBit_of_land_single {a p : Nat} (h : a &&& (1 <<< p) ≠ 0) :
    a.testBit p = true := by
  by_contra hfalse
  apply h
  apply Nat.eq_of_testBit_eq
  intro k
  rw [Nat.testBit_land, testBit_one_shift, Nat.zero_testBit]
  by_cases hk : p = k
  · subst hk
    simp [Bool.not_eq_true] at hfalse
    simp [hfalse]
  · simp [hk]

theorem land_single_ne_zero {a p : Nat} (h : a.testBit p = true) :
    a &&& (1 <<< p) ≠ 0 := by
  intro h0
  have h2 := congrArg (Nat.testBit · p) h0
  simp only [Nat.testBit_land, testBit_one_shift, Nat.zero_testBit, h,
    Bool.true_and] at h2
  exact absurd h2 (by simp)

theorem land_eq_zero_iff {a b : Nat} :
    a &&& b = 0 ↔ ∀ k, a.testBit k = true → b.testBit k = false := by
  constructor
  · intro h k hk
    have h2 := congrArg (Nat.testBit · k) h
    simp only [Nat.testBit_land, hk, Bool.true_and, Nat.zero_testBit] at h2
    exact h2
  · intro h
    apply Nat.eq_of_testBit_eq
    intro k
    rw [Nat.testBit_land, Nat.zero_testBit]
    cases h1 : a.testBit k
    · simp
    · simp [h k h1]

theorem testBit_andNot (a b k : Nat) :
    (andNot a b).testBit k = (a.testBit k && !(b.testBit k)) := by
  rw [andNot, Nat.testBit_xor, Nat.testBit_land]
  cases a.testBit k <;> cases b.testBit k <;> rfl

theorem andNot_eq_zero_iff {a b : Nat} :
    andNot a b = 0 ↔ ∀ k, a.testBit k = true → b.testBit k = true := by
  constructor
  · intro h k hk
    have h2 := congrArg (Nat.testBit · k) h
    simp only [testBit_andNot, Nat.zero_testBit, hk, Bool.true_and] at h2
    simpa using h2
  · intro h
    apply Nat.eq_of_testBit_eq
    intro k
    rw [testBit_andNot, Nat.zero_testBit]
    cases h1 : a.testBit k
    · simp
    · simp [h k h1]

theorem andNot_lor_cancel {s m : Nat} (h : s &&& m = 0) :
    andNot (s ||| m) m = s := by
  apply Nat.eq_of_testBit_eq
  intro k
  rw [testBit_andNot, Nat.testBit_lor]
  cases h1 : s.testBit k
  · cases h2 : m.testBit k <;> simp
  · have h3 := (land_eq_zero_iff.mp h) k h1
    simp [h3]

/-! ### Membership-mask construction: duplicates and out-of-bounds
coordinates (claims C8, C9) -/

theorem testBit_anchor_tileBits (w x y : Nat) :
    (tileBits w x y).testBit (4 * y * w + 2 * x) = true := by
  simp only [tileBits, Nat.testBit_lor, testBit_one_shift]
  simp

theorem foldl_addCoord_mono (w : Nat) :
    ∀ (l : List (Nat × Nat)) (acc : Nat × Nat) (k : Nat),
      acc.1.testBit k = true → (l.foldl (addCoord w) acc).1.testBit k = true := by
  intro l
  induction l with
  | nil => intro acc k h; exact h
  | cons c rest ih =>
    intro acc k h
    rw [List.foldl_cons]
    apply ih
    simp only [addCoord]
    split
    · exact h
    · simp [Nat.testBit_lor, h]

theorem anchor_set_after_mem (w : Nat) :
    ∀ (l : List (Nat × Nat)) (acc : Nat × Nat) (c : Nat × Nat), c ∈ l →
      (l.foldl (addCoord w) acc).1.testBit (4 * c.2 * w + 2 * c.1) = true := by
  intro l
  induction l with
  | nil => intro acc c h; exact absurd h (List.not_mem_nil c)
  | cons d rest ih =>
    intro acc c hmem
    rw [List.foldl_cons]
    rcases List.mem_cons.mp hmem with hhd | htl
    · subst hhd
      apply foldl_addCoord_mono
      simp only [addCoord]
      split
      · exact testBit_of_land_single (by assumption)
      · simp only [Nat.testBit_lor]
        rw [testBit_anchor_tileBits]
        simp
    · exact ih _ c htl

theorem addCoord_skip_of_anchor_set {w : Nat} {acc : Nat × Nat} {c : Nat × Nat}
    (h : acc.1.testBit (4 * c.2 * w + 2 * c.1) = true) :
    addCoord w acc c = acc := by
  simp only [addCoord]
  rw [if_pos (land_single_ne_zero h)]

/-- Claim C9 (confirmed): a repeated coarse-tile coordinate is skipped;
the membership mask and the fine-cell count (indeed the whole constructed
board model) coincide with those produced by the list with the duplicate
occurrence removed, and construction is total (the JS warning aside). -/
theorem claim_C9 (w h : Nat) (pre post : List (Nat × Nat)) (c : Nat × Nat)
    (hc : c ∈ pre) :
    mkPuzzle w h (pre ++ c :: post) = mkPuzzle w h (pre ++ post) := by
  have key : (pre ++ c :: post).foldl (addCoord w) (0, 0) =
      (pre ++ post).foldl (addCoord w) (0, 0) := by
    rw [List.foldl_append, List.foldl_append, List.foldl_cons]
    rw [addCoord_skip_of_anchor_set (anchor_set_after_mem w pre (0, 0) c hc)]
  simp only [mkPuzzle, key]

/-- Witness for C9 at a concrete input. -/
theorem claim_C9_witness :
    mkPuzzle 2 2 ([(0, 0), (1, 0)] ++ (0, 0) :: [(1, 1)]) =
      mkPuzzle 2 2 ([(0, 0), (1, 0)] ++ [(1, 1)]) :=
  claim_C9 2 2 [(0, 0), (1, 0)] [(1, 1)] (0, 0) (by decide)

/-- The coordinates of a list that the constructor loop does not skip,
given the membership mask built so far (used to state the amended C8). -/
def acceptedCoords (w : Nat) (mask : Nat) : List (Nat × Nat) → List (Nat × Nat)
  | [] => []
  | c :: rest =>
    let p := 4 * c.2 * w + 2 * c.1
    if mask &&& (1 <<< p) ≠ 0 then acceptedCoords w mask rest
    else c :: acceptedCoords w (mask ||| tileBits w c.1 c.2) rest

theorem foldl_addCoord_count (w : Nat) :
    ∀ (l : List (Nat × Nat)) (mask tc : Nat),
      (l.foldl (addCoord w) (mask, tc)).2 =
        tc + 4 * (acceptedCoords w mask l).length := by
  intro l
  induction l with
  | nil => intro mask tc; simp [acceptedCoords]
  | cons c rest ih =>
    intro mask tc
    rw [List.foldl_cons]
    simp only [addCoord, acceptedCoords]
    split
    · rw [ih]
    · rw [ih]
      simp only [List.length_cons]
      ring

/-- Counterexample to claim C8 as stated: on a 1×1 board the out-of-bounds
coordinate (1, 0) does set fine-cell bits (mask 60 = bits 2..5) and raises
the fine-cell count to 4, although there are 0 distinct in-bounds
coordinates in the list. -/
theorem claim_C8_cex :
    (mkPuzzle 1 1 [(1, 0)]).mask = 60 ∧ (60 : Nat) ≠ 0 ∧
      (mkPuzzle 1 1 [(1, 0)]).tileCount = 4 ∧ (4 : Nat) ≠ 4 * 0 := by
  refine ⟨by decide, by decide, by decide, by decide⟩

/-- Claim C8, amended (the JS mask-building loop performs no bounds
check): every coordinate whose anchor bit is still clear — in bounds or
not — ORs in its four fine-cell bits and adds 4 to the fine-cell count; a
coordinate whose anchor bit is already set changes nothing; consequently
the total fine-cell count is 4 times the number of non-skipped
coordinates. -/
theorem claim_C8_amended (w : Nat) :
    (∀ (mask tc x y : Nat), mask &&& (1 <<< (4 * y * w + 2 * x)) = 0 →
        addCoord w (mask, tc) (x, y) = (mask ||| tileBits w x y, tc + 4)) ∧
    (∀ (mask tc x y : Nat), mask &&& (1 <<< (4 * y * w + 2 * x)) ≠ 0 →
        addCoord w (mask, tc) (x, y) = (mask, tc)) ∧
    (∀ (h : Nat) (coords : List (Nat × Nat)),
        (mkPuzzle w h coords).tileCount = 4 * (acceptedCoords w 0 coords).length) := by
  refine ⟨?_, ?_, ?_⟩
  · intro mask tc x y hz
    simp [addCoord, hz]
  · intro mask tc x y hz
    simp [addCoord, hz]
  · intro h coords
    simp only [mkPuzzle]
    rw [foldl_addCoord_count]
    omega

/-- Witness for the amended C8 at concrete inputs. -/
theorem claim_C8_amended_witness :
    addCoord 1 (0, 0) (1, 0) = (0 ||| tileBits 1 1 0, 0 + 4) ∧
      addCoord 1 (60, 4) (1, 0) = (60, 4) := by
  constructor
  · exact (claim_C8_amended 1).1 0 0 1 0 (by decide)
  · exact (claim_C8_amended 1).2.1 60 4 1 0 (by decide)

/-! ### Claim C3: the fast-fail check -/

/-- Counterexample to claim C3 as stated: when `pieceCounts` is omitted
the default preset `[2, 6, 4, 2, 2]` is used but the fast-fail check is
skipped.  On the full 2×2 board the weighted piece total (56) differs
from the fine-cell count (16), yet `solve()` runs the search and returns
a non-empty solution list. -/
theorem claim_C3_cex :
    (mkPuzzle 2 2 [(0, 0), (1, 0), (0, 1), (1, 1)]).tileCount ≠
      pieceCountTotal defaultCounts ∧
    solve (mkPuzzle 2 2 [(0, 0), (1, 0), (0, 1), (1, 1)]) 100 none ≠ some [] := by
  constructor
  · decide
  · decide

/-- Claim C3, amended: only when `pieceCounts` is passed explicitly does
the mismatch check run; it then returns the empty list immediately — for
every fuel budget, including zero, so no recursive search step is taken —
and (the model being total) nothing is thrown.  When the argument is
omitted, no check is performed and the search runs on the default
preset. -/
theorem claim_C3_amended (P : Puzzle) (pieceCounts : List Nat) (fuel : Nat)
    (hne : P.tileCount ≠ pieceCountTotal pieceCounts) :
    solve P fuel (some pieceCounts) = some [] := by
  simp only [solve]
  rw [if_pos hne]

/-- Witness for the amended C3 at a concrete input, with fuel 0 (showing
that no search is needed). -/
theorem claim_C3_amended_witness :
    solve (mkPuzzle 2 2 [(0, 0), (1, 0), (0, 1), (1, 1)]) 0 (some [0, 0, 0, 0, 0]) =
      some [] :=
  claim_C3_amended _ _ 0 (by decide)

/-! ### Claim C4: the all-empty board -/

/-- On a board whose membership mask is zero the scan runs straight off
the last row and reports a leaf without recording anything: `solve0`
returns `(true, st)` unchanged.  (Positive width is required: the JS
recursion diverges on width-0 boards.) -/
theorem solve0_empty_scan (P : Puzzle) (hmask : P.mask = 0) (hw : 1 ≤ P.width) :
    ∀ (fuel x y : Nat) (st : SState), x ≤ P.width → y ≤ P.height →
      (P.height + 1 - y) * (P.width + 1) + (P.width - x) + 2 ≤ fuel →
      solve0 P fuel st x y = some (true, st) := by
  intro fuel
  induction fuel with
  | zero =>
    intro x y st _ _ hb
    omega
  | succ fuel ih =>
    intro x y st hx hy hb
    by_cases hxw : P.width ≤ x
    · simp only [solve0]
      rw [if_pos hxw]
      by_cases hyh : y < P.height
      · apply ih 0 (y + 1) st (by omega) (by omega)
        have e1 : P.height + 1 - y = (P.height - y) + 1 := by omega
        have e2 : P.height + 1 - (y + 1) = (P.height - y - 1) + 1 := by omega
        have e3 : P.height - y = (P.height - y - 1) + 1 := by omega
        rw [e1, Nat.succ_mul] at hb
        rw [e2, Nat.succ_mul]
        rw [e3, Nat.succ_mul] at hb
        omega
      · -- y = P.height: one more wrap step, then the leaf test fires
        have hyeq : y = P.height := by omega
        match fuel, (by omega : 1 ≤ fuel) with
        | fuel2 + 1, _ =>
          simp only [solve0]
          rw [if_neg (by omega), if_pos (by omega)]
    · simp only [solve0]
      rw [if_neg hxw]
      by_cases hyh : P.height ≤ y
      · rw [if_pos hyh]
      · rw [if_neg hyh]
        have hE : P.isEmpty x y = true := by
          simp [Puzzle.isEmpty, hmask]
        rw [hE]
        simp only [Bool.true_or, if_true]
        apply ih (x + 1) y st (by omega) (by omega)
        omega

/-- Counterexample to claim C4 as stated: on the empty 2×2 board with all
piece counts zero, `solve` returns the empty list of solutions — not a
one-element list containing the empty move list.  (The leaf signal of the
top-level `solve0` call is discarded by `solve`, so the empty tiling is
never recorded.) -/
theorem claim_C4_cex :
    solve (mkPuzzle 2 2 []) 20 (some [0, 0, 0, 0, 0]) = some [] ∧
      (some ([] : List (List Move)) ≠ some [([] : List Move)]) := by
  constructor
  · decide
  · decide

/-- Claim C4, amended: for every board of positive width with an empty
coordinate list and piece counts `[0,0,0,0,0]`, `solve` returns the empty
solution list `[]` (no error, but also no recorded empty solution).
Width 0 is excluded: there the JS recursion never terminates. -/
theorem claim_C4_amended (w h fuel : Nat) (hw : 1 ≤ w)
    (hfuel : (h + 1) * (w + 1) + w + 2 ≤ fuel) :
    solve (mkPuzzle w h []) fuel (some [0, 0, 0, 0, 0]) = some [] := by
  have htc : (mkPuzzle w h []).tileCount = 0 := rfl
  have hpt : pieceCountTotal [0, 0, 0, 0, 0] = 0 := rfl
  simp only [solve]
  rw [if_neg (by rw [htc, hpt]; exact fun hne => hne rfl)]
  rw [solve0_empty_scan (mkPuzzle w h []) rfl hw fuel 0 0 _ (by omega) (by omega)
    (by simpa using hfuel)]
  rfl

/-- Witness for the amended C4 at a concrete input. -/
theorem claim_C4_amended_witness :
    solve (mkPuzzle 2 2 []) 13 (some [0, 0, 0, 0, 0]) = some [] :=
  claim_C4_amended 2 2 13 (by decide) (by decide)

/-! ### Claim C5: rotation deduplication -/

theorem flattenRot_four (w a b c d : Nat) :
    flattenRot w [a, b, c, d] =
      a ||| b <<< (2 * 1 * w) ||| c <<< (2 * 2 * w) ||| d <<< (2 * 3 * w) := by
  simp [flattenRot, List.enum, List.enumFrom, List.foldl]

theorem testBit_flatten4_low (w a b c d k : Nat) (hw : 1 ≤ w) (hk : k < 2) :
    (flattenRot w [a, b, c, d]).testBit k = a.testBit k := by
  rw [flattenRot_four]
  simp only [Nat.testBit_lor, Nat.testBit_shiftLeft]
  rw [decide_eq_false (by omega : ¬ (k ≥ 2 * 1 * w))]
  rw [decide_eq_false (by omega : ¬ (k ≥ 2 * 2 * w))]
  rw [decide_eq_false (by omega : ¬ (k ≥ 2 * 3 * w))]
  simp

/-- Counterexample to claim C5 as stated.  At board width 2 the point
symmetric piece 0 keeps the rotation entries `[528, 36]`: the flattened
0° mask (528) and the flattened 90° mask (36).  The 90° and 270° variants
are both 36, so the kept entries are not "the 90° and 270° rotation
variants" — the dropped indices are 2 and 3 (180° and 270°), not just the
180° one.  Moreover at width 0 the flattening degenerates and even the
non-symmetric piece 1 is reduced to 2 entries instead of keeping 4. -/
theorem claim_C5_cex :
    (boardPieces 2).getD 0 [] = [528, 36] ∧
    flattenRot 2 ((pieces.getD 0 (mkPiece 0)).rotations.getD 1 []) = 36 ∧
    flattenRot 2 ((pieces.getD 0 (mkPiece 0)).rotations.getD 3 []) = 36 ∧
    (528 : Nat) ≠ 36 ∧
    ((boardPieces 0).getD 1 []).length = 2 := by
  refine ⟨by decide, by decide, by decide, by decide, by decide⟩

/-- Claim C5, amended: for every board width ≥ 1, each piece type whose
0° and 180° footprints are bit-identical (piece types 0 and 3) has its
rotation list reduced from 4 to exactly 2 entries, namely the flattened
0° and 90° variants (the 180° and 270° entries, duplicates of 0° and 90°
respectively, are dropped); every other piece type (1, 2 and 4) keeps all
4 board-anchored rotation masks.  Width 0 is excluded: there all
flattened footprints collapse and every piece is reduced. -/
theorem claim_C5_amended (w : Nat) (hw : 1 ≤ w) :
    (∀ i ∈ [0, 3],
      (boardPieces w).getD i [] =
        [flattenRot w ((pieces.getD i (mkPiece 0)).rotations.getD 0 []),
         flattenRot w ((pieces.getD i (mkPiece 0)).rotations.getD 1 [])] ∧
      flattenRot w ((pieces.getD i (mkPiece 0)).rotations.getD 0 []) =
        flattenRot w ((pieces.getD i (mkPiece 0)).rotations.getD 2 [])) ∧
    (∀ i ∈ [1, 2, 4],
      (boardPieces w).getD i [] =
        (pieces.getD i (mkPiece 0)).rotations.map (flattenRot w) ∧
      ((boardPieces w).getD i []).length = 4) := by
  have hr0 : (pieces.getD 0 (mkPiece 0)).rotations =
      [[0, 1, 2, 0], [4, 2], [0, 1, 2, 0], [4, 2]] := by decide
  have hr1 : (pieces.getD 1 (mkPiece 0)).rotations =
      [[1, 1, 2, 0], [4, 3], [0, 1, 2, 2], [12, 2]] := by decide
  have hr2 : (pieces.getD 2 (mkPiece 0)).rotations =
      [[3, 1, 2, 0], [5, 3], [0, 1, 2, 3], [12, 10]] := by decide
  have hr3 : (pieces.getD 3 (mkPiece 0)).rotations =
      [[1, 1, 2, 2], [12, 3], [1, 1, 2, 2], [12, 3]] := by decide
  have hr4 : (pieces.getD 4 (mkPiece 0)).rotations =
      [[3, 1, 2, 2], [13, 3], [1, 1, 2, 3], [12, 11]] := by decide
  have hbp : ∀ i, (boardPieces w).getD i [] =
      boardRotations w (pieces.getD i (mkPiece 0)) ∨ 5 ≤ i := by
    intro i
    match i with
    | 0 => left; rfl
    | 1 => left; rfl
    | 2 => left; rfl
    | 3 => left; rfl
    | 4 => left; rfl
    | n + 5 => right; omega
  constructor
  · intro i hi
    have hcases : i = 0 ∨ i = 3 := by simpa using hi
    rcases hcases with h | h <;> subst h
    · rcases hbp 0 with he | he
      · rw [he, boardRotations, hr0]
        constructor
        · simp
        · simp
      · omega
    · rcases hbp 3 with he | he
      · rw [he, boardRotations, hr3]
        constructor
        · simp
        · simp
      · omega
  · intro i hi
    have hcases : i = 1 ∨ i = 2 ∨ i = 4 := by simpa using hi
    have key : ∀ r0a r0b r0c r0d r2a r2b r2c r2d : Nat, ∀ k, k < 2 →
        r0a.testBit k = true → r2a.testBit k = false →
        flattenRot w [r0a, r0b, r0c, r0d] ≠ flattenRot w [r2a, r2b, r2c, r2d] := by
      intro r0a r0b r0c r0d r2a r2b r2c r2d k hk h0 h2 heq
      have hbit := congrArg (Nat.testBit · k) heq
      simp only [testBit_flatten4_low _ _ _ _ _ k hw hk, h0, h2] at hbit
      exact Bool.noConfusion hbit
    rcases hcases with h | h | h <;> subst h
    · rcases hbp 1 with he | he
      · rw [he, boardRotations, hr1]
        have hne := key 1 1 2 0 0 1 2 2 0 (by omega) (by decide) (by decide)
        simp only [List.map]
        rw [if_neg (by simpa using hne)]
        exact ⟨rfl, rfl⟩
      · omega
    · rcases hbp 2 with he | he
      · rw [he, boardRotations, hr2]
        have hne := key 3 1 2 0 0 1 2 3 0 (by omega) (by decide) (by decide)
        simp only [List.map]
        rw [if_neg (by simpa using hne)]
        exact ⟨rfl, rfl⟩
      · omega
    · rcases hbp 4 with he | he
      · rw [he, boardRotations, hr4]
        have hne := key 3 1 2 2 1 1 2 3 1 (by omega) (by decide) (by decide)
        simp only [List.map]
        rw [if_neg (by simpa using hne)]
        exact ⟨rfl, rfl⟩
      · omega

/-- Witness for the amended C5 at width 2. -/
theorem claim_C5_amended_witness :
    (boardPieces 2).getD 0 [] =
        [flattenRot 2 ((pieces.getD 0 (mkPiece 0)).rotations.getD 0 []),
         flattenRot 2 ((pieces.getD 0 (mkPiece 0)).rotations.getD 1 [])] ∧
      ((boardPieces 2).getD 1 []).length = 4 :=
  ⟨((claim_C5_amended 2 (by decide)).1 0 (by decide)).1,
   ((claim_C5_amended 2 (by decide)).2 1 (by decide)).2⟩

/-! ### Search-state predicates for the solver invariants -/

/-- The union of the board-shifted footprints of a move list (JS keeps
this value in `state.s`). -/
def coverAll (P : Puzzle) (l : List Move) : Nat :=
  l.foldl (fun s mv => s ||| moveFoot P mv) 0

/-- All footprints of the list are pairwise disjoint. -/
def DisjointMoves (P : Puzzle) (l : List Move) : Prop :=
  l.Pairwise (fun a b => moveFoot P a &&& moveFoot P b = 0)

/-- Number of moves of the list that use piece type `i`. -/
def countType (l : List Move) (i : Nat) : Nat :=
  l.countP (fun mv => mv.i == i)

/-- Every in-bounds tile at or after `(x, y)` in row-major scan order is
outside the membership mask or fully covered by `s`. -/
def ScanClear (P : Puzzle) (s x y : Nat) : Prop :=
  ∀ a b : Nat, a < P.width → b < P.height → (y < b ∨ (b = y ∧ x ≤ a)) →
    P.isEmpty a b = true ∨ P.isComplete s a b = true

/-- Every in-bounds tile strictly before `(x, y)` in row-major scan order
is outside the membership mask or fully covered by `s`. -/
def PreClear (P : Puzzle) (s x y : Nat) : Prop :=
  ∀ a b : Nat, a < P.width → b < P.height → (b < y ∨ (b = y ∧ a < x)) →
    P.isEmpty a b = true ∨ P.isComplete s a b = true

/-- Every in-bounds tile is outside the membership mask or fully covered
by `s`. -/
def AllClear (P : Puzzle) (s : Nat) : Prop :=
  ∀ a b : Nat, a < P.width → b < P.height →
    P.isEmpty a b = true ∨ P.isComplete s a b = true

/-- The entry invariant of a `solve0` call: the coverage is inside the
membership mask, is exactly the union of the recorded footprints, those
footprints are pairwise disjoint, and every tile already scanned is
settled. -/
def EntryInv (P : Puzzle) (st : SState) (x y : Nat) : Prop :=
  st.s &&& P.mask = st.s ∧ st.s = coverAll P st.moves ∧
    DisjointMoves P st.moves ∧ PreClear P st.s x y

/-- What `solve0` guarantees about every solution it appends, relative to
the move stack and remaining counts at entry. -/
def SolGood (P : Puzzle) (mvs0 : List Move) (cnts0 : List Nat)
    (sol : List Move) : Prop :=
  ∃ ext, sol = mvs0 ++ ext ∧
    (∀ i, countType ext i ≤ cnts0.getD i 0) ∧
    (∀ mv ∈ ext, mv.i < P.pieces.length ∧
      mv.j < (P.pieces.getD mv.i []).length) ∧
    DisjointMoves P sol ∧
    coverAll P sol &&& P.mask = coverAll P sol ∧
    AllClear P (coverAll P sol)

/-- Net effect of a balanced stretch of search work starting and ending
at tile `(x, y)`: counts, coverage and move stack are restored, and the
solution list only grows, by solutions that are good for the entry
state. -/
def Ok (P : Puzzle) (x y : Nat) (st st2 : SState) : Prop :=
  st2.pieceCounts = st.pieceCounts ∧ st2.s = st.s ∧ st2.moves = st.moves ∧
    ∃ new, st2.solutions = st.solutions ++ new ∧
      (EntryInv P st x y → ∀ sol ∈ new, SolGood P st.moves st.pieceCounts sol)

theorem Ok_refl (P : Puzzle) (x y : Nat) (st : SState) : Ok P x y st st :=
  ⟨rfl, rfl, rfl, [], (List.append_nil _).symm, fun _ sol h => absurd h (List.not_mem_nil sol)⟩

theorem EntryInv_congr {P : Puzzle} {x y : Nat} {st st2 : SState}
    (_hc : st2.pieceCounts = st.pieceCounts) (hs : st2.s = st.s)
    (hm : st2.moves = st.moves) :
    EntryInv P st x y → EntryInv P st2 x y := by
  intro ⟨h1, h2, h3, h4⟩
  exact ⟨by rw [hs]; exact h1, by rw [hs, hm]; exact h2, by rw [hm]; exact h3,
    by rw [hs]; exact h4⟩

theorem Ok_trans {P : Puzzle} {x y : Nat} {st st2 st3 : SState}
    (h12 : Ok P x y st st2) (h23 : Ok P x y st2 st3) : Ok P x y st st3 := by
  obtain ⟨hc1, hs1, hm1, new1, hsol1, hgood1⟩ := h12
  obtain ⟨hc2, hs2, hm2, new2, hsol2, hgood2⟩ := h23
  refine ⟨hc2.trans hc1, hs2.trans hs1, hm2.trans hm1, new1 ++ new2, ?_, ?_⟩
  · rw [hsol2, hsol1, List.append_assoc]
  · intro hinv sol hmem
    rcases List.mem_append.mp hmem with h | h
    · exact hgood1 hinv sol h
    · have := hgood2 (EntryInv_congr hc1 hs1 hm1 hinv) sol h
      rw [hm1, hc1] at this
      exact this

/-- Transporting `Ok` backwards along a no-op scan step. -/
theorem Ok_mono {P : Puzzle} {x y x2 y2 : Nat} {st st2 : SState}
    (hEI : EntryInv P st x y → EntryInv P st x2 y2)
    (h : Ok P x2 y2 st st2) : Ok P x y st st2 := by
  obtain ⟨hc, hs, hm, new, hsol, hgood⟩ := h
  exact ⟨hc, hs, hm, new, hsol, fun hinv => hgood (hEI hinv)⟩

/-! ### Bitmask facts about coverage -/

theorem sub_lor_sub {a b c : Nat} (ha : a &&& c = a) (hb : b &&& c = b) :
    (a ||| b) &&& c = a ||| b := by
  rw [land_eq_left_iff] at ha hb ⊢
  intro k hk
  rw [Nat.testBit_lor] at hk
  rcases Bool.or_eq_true_iff.mp hk with h | h
  · exact ha k h
  · exact hb k h

theorem sub_of_sub_disjoint {a s m : Nat} (ha : a &&& s = a) (hd : s &&& m = 0) :
    a &&& m = 0 := by
  rw [land_eq_left_iff] at ha
  rw [land_eq_zero_iff] at hd ⊢
  intro k hk
  exact hd k (ha k hk)

theorem complete_mono {s t m : Nat} (h : s &&& t = t) : (s ||| m) &&& t = t := by
  rw [Nat.land_comm] at h
  rw [Nat.land_comm]
  rw [land_eq_left_iff] at h ⊢
  intro k hk
  rw [Nat.testBit_lor]
  simp [h k hk]

theorem foldl_cover_start_mono (P : Puzzle) :
    ∀ (l : List Move) (s : Nat) (k : Nat), s.testBit k = true →
      (l.foldl (fun s mv => s ||| moveFoot P mv) s).testBit k = true := by
  intro l
  induction l with
  | nil => intro s k h; exact h
  | cons mv rest ih =>
    intro s k h
    rw [List.foldl_cons]
    exact ih _ k (by rw [Nat.testBit_lor, h]; rfl)

theorem foot_sub_coverAux (P : Puzzle) :
    ∀ (l : List Move) (s : Nat) (mv : Move), mv ∈ l →
      moveFoot P mv &&& (l.foldl (fun s mv => s ||| moveFoot P mv) s) =
        moveFoot P mv := by
  intro l
  induction l with
  | nil => intro s mv h; exact absurd h (List.not_mem_nil mv)
  | cons hd rest ih =>
    intro s mv hmem
    rw [List.foldl_cons]
    rcases List.mem_cons.mp hmem with h | h
    · subst h
      rw [land_eq_left_iff]
      intro k hk
      apply foldl_cover_start_mono
      rw [Nat.testBit_lor, hk]
      simp
    · exact ih _ mv h

theorem foot_sub_coverAll (P : Puzzle) {l : List Move} {mv : Move} (h : mv ∈ l) :
    moveFoot P mv &&& coverAll P l = moveFoot P mv :=
  foot_sub_coverAux P l 0 mv h

theorem coverAll_concat (P : Puzzle) (l : List Move) (mv : Move) :
    coverAll P (l ++ [mv]) = coverAll P l ||| moveFoot P mv := by
  simp only [coverAll, List.foldl_append, List.foldl_cons, List.foldl_nil]

/-! ### Counter-list update lemmas -/

theorem getD_eq_zero_of_le {l : List Nat} {i : Nat} (h : l.length ≤ i) :
    l.getD i 0 = 0 := by
  simp [List.getD, List.getElem?_eq_none h]

theorem getD_set_self {l : List Nat} {i v : Nat} (h : i < l.length) :
    (l.set i v).getD i 0 = v := by
  simp [List.getD, List.getElem?_set, h]

theorem getD_set_ne {l : List Nat} {i i2 v : Nat} (h : i ≠ i2) :
    (l.set i v).getD i2 0 = l.getD i2 0 := by
  simp [List.getD, List.getElem?_set, h]

theorem set_getD_self {l : List Nat} {i : Nat} (h : i < l.length) :
    l.set i (l.getD i 0) = l := by
  apply List.ext_getElem?
  intro j
  rw [List.getElem?_set]
  by_cases hij : i = j
  · subst hij
    simp [List.getD, List.getElem?_eq_getElem h, h]
  · simp [hij]

theorem incAt_decAt {l : List Nat} {i : Nat} (h : l.getD i 0 ≠ 0) :
    incAt (decAt l i) i = l := by
  have hlen : i < l.length := by
    by_contra hc
    exact h (getD_eq_zero_of_le (by omega))
  rw [incAt, decAt, getD_set_self hlen, List.set_set]
  have hadd : l.getD i 0 - 1 + 1 = l.getD i 0 := by omega
  rw [hadd, set_getD_self hlen]

theorem decAt_getD_self {l : List Nat} {i : Nat} (h : i < l.length) :
    (decAt l i).getD i 0 = l.getD i 0 - 1 := by
  rw [decAt]
  exact getD_set_self h

theorem decAt_getD_ne {l : List Nat} {i i2 : Nat} (h : i ≠ i2) :
    (decAt l i).getD i2 0 = l.getD i2 0 :=
  getD_set_ne h

/-! ### Monotonicity and scan-order transport lemmas -/

theorem isComplete_eq_true_iff {P : Puzzle} {s x y : Nat} :
    P.isComplete s x y = true ↔
      s &&& tileBits P.width x y = tileBits P.width x y := by
  simp [Puzzle.isComplete]

theorem isComplete_mono {P : Puzzle} {s m x y : Nat}
    (h : P.isComplete s x y = true) : P.isComplete (s ||| m) x y = true := by
  rw [isComplete_eq_true_iff] at h ⊢
  exact complete_mono h

theorem PreClear_mono {P : Puzzle} {s m x y : Nat} (h : PreClear P s x y) :
    PreClear P (s ||| m) x y := by
  intro a b ha hb hlt
  rcases h a b ha hb hlt with he | hc
  · exact Or.inl he
  · exact Or.inr (isComplete_mono hc)

theorem AllClear_of {P : Puzzle} {s x y : Nat} (hpre : PreClear P s x y)
    (hscan : ScanClear P s x y) : AllClear P s := by
  intro a b ha hb
  by_cases hlt : b < y ∨ (b = y ∧ a < x)
  · exact hpre a b ha hb hlt
  · exact hscan a b ha hb (by omega)

theorem PreClear_wrap {P : Puzzle} {s x y : Nat} (hx : P.width ≤ x)
    (h : PreClear P s x y) : PreClear P s 0 (y + 1) := by
  intro a b ha hb hlt
  exact h a b ha hb (by omega)

theorem ScanClear_wrap {P : Puzzle} {s x y : Nat} (hx : P.width ≤ x)
    (h : ScanClear P s 0 (y + 1)) : ScanClear P s x y := by
  intro a b ha hb hlt
  exact h a b ha hb (by omega)

theorem PreClear_step {P : Puzzle} {s x y : Nat}
    (htile : P.isEmpty x y = true ∨ P.isComplete s x y = true)
    (h : PreClear P s x y) : PreClear P s (x + 1) y := by
  intro a b ha hb hlt
  by_cases hcur : b = y ∧ a = x
  · obtain ⟨hb2, ha2⟩ := hcur
    subst hb2
    subst ha2
    exact htile
  · exact h a b ha hb (by omega)

theorem ScanClear_step {P : Puzzle} {s x y : Nat}
    (htile : P.isEmpty x y = true ∨ P.isComplete s x y = true)
    (h : ScanClear P s (x + 1) y) : ScanClear P s x y := by
  intro a b ha hb hlt
  by_cases hcur : b = y ∧ a = x
  · obtain ⟨hb2, ha2⟩ := hcur
    subst hb2
    subst ha2
    exact htile
  · exact h a b ha hb (by omega)

theorem ScanClear_leaf {P : Puzzle} {s x y : Nat} (hy : P.height ≤ y) :
    ScanClear P s x y := by
  intro a b ha hb hlt
  omega

/-! ### Lifting solution goodness across one placement -/

theorem foot_sub_mask {P : Puzzle} {m : Nat} (hsp : andNot m P.mask = 0) :
    m &&& P.mask = m :=
  land_eq_left_iff.mpr (andNot_eq_zero_iff.mp hsp)

/-- After an accepted placement the entry invariant holds again for the
state passed to the recursive call. -/
theorem EntryInv_place {P : Puzzle} {x y i j : Nat} {stL : SState}
    (hinv : EntryInv P stL x y)
    (hov : stL.s &&& moveFoot P ⟨x, y, i, j⟩ = 0)
    (hsp : andNot (moveFoot P ⟨x, y, i, j⟩) P.mask = 0) :
    EntryInv P
      { pieceCounts := decAt stL.pieceCounts i,
        s := stL.s ||| moveFoot P ⟨x, y, i, j⟩,
        moves := stL.moves ++ [⟨x, y, i, j⟩],
        solutions := stL.solutions } x y := by
  obtain ⟨h1, h2, h3, h4⟩ := hinv
  refine ⟨?_, ?_, ?_, ?_⟩
  · exact sub_lor_sub h1 (foot_sub_mask hsp)
  · simp only
    rw [coverAll_concat, h2]
  · simp only
    rw [DisjointMoves, List.pairwise_append]
    refine ⟨h3, List.pairwise_singleton _ _, ?_⟩
    intro a hmem mv2 hmv2
    have hmv2e : mv2 = ⟨x, y, i, j⟩ := by simpa using hmv2
    subst hmv2e
    have hfa : moveFoot P a &&& stL.s = moveFoot P a := by
      rw [h2]
      exact foot_sub_coverAll P hmem
    exact sub_of_sub_disjoint hfa hov
  · exact PreClear_mono h4

/-- A solution good for the post-placement state is good for the
pre-placement state: the placed move is absorbed into the extension. -/
theorem SolGood_unplace {P : Puzzle} {x y i j : Nat} {stL : SState} {sol : List Move}
    (hi : i < P.pieces.length) (hj : j < (P.pieces.getD i []).length)
    (hcnt : stL.pieceCounts.getD i 0 ≠ 0)
    (hg : SolGood P (stL.moves ++ [⟨x, y, i, j⟩]) (decAt stL.pieceCounts i) sol) :
    SolGood P stL.moves stL.pieceCounts sol := by
  obtain ⟨ext1, hsol, hcount, hvalid, hdisj, hsub, hall⟩ := hg
  have hlen : i < stL.pieceCounts.length := by
    by_contra hlen
    exact hcnt (getD_eq_zero_of_le (by omega))
  refine ⟨⟨x, y, i, j⟩ :: ext1, ?_, ?_, ?_, hdisj, hsub, hall⟩
  · rw [hsol, List.append_assoc]
    rfl
  · intro i2
    rw [countType, List.countP_cons]
    by_cases hi2 : i = i2
    · subst hi2
      have hc1 := hcount i
      rw [decAt_getD_self hlen] at hc1
      simp only [Move.i, beq_self_eq_true, if_pos]
      rw [countType] at hc1
      omega
    · have hc1 := hcount i2
      rw [decAt_getD_ne hi2] at hc1
      rw [countType] at hc1
      have hbeq : ((⟨x, y, i, j⟩ : Move).i == i2) = false := by
        simp [hi2]
      rw [hbeq]
      simpa using hc1
  · intro mv hmem
    rcases List.mem_cons.mp hmem with h | h
    · subst h
      exact ⟨hi, hj⟩
    · exact hvalid mv h

/-- The solution recorded directly after a placement whose recursive call
signalled a leaf is good. -/
theorem SolGood_record {P : Puzzle} {x y i j : Nat} {stL : SState}
    (hinv : EntryInv P stL x y)
    (hov : stL.s &&& moveFoot P ⟨x, y, i, j⟩ = 0)
    (hsp : andNot (moveFoot P ⟨x, y, i, j⟩) P.mask = 0)
    (hi : i < P.pieces.length) (hj : j < (P.pieces.getD i []).length)
    (hcnt : stL.pieceCounts.getD i 0 ≠ 0)
    (hscan : ScanClear P (stL.s ||| moveFoot P ⟨x, y, i, j⟩) x y) :
    SolGood P stL.moves stL.pieceCounts (stL.moves ++ [⟨x, y, i, j⟩]) := by
  have hinv1 := EntryInv_place hinv hov hsp
  obtain ⟨h1, h2, h3, h4⟩ := hinv1
  refine ⟨[⟨x, y, i, j⟩], rfl, ?_, ?_, h3, ?_, ?_⟩
  · intro i2
    rw [countType, List.countP_cons, List.countP_nil]
    by_cases hi2 : i = i2
    · subst hi2
      simp only [Move.i, beq_self_eq_true, if_pos]
      omega
    · have hbeq : ((⟨x, y, i, j⟩ : Move).i == i2) = false := by
        simp [hi2]
      rw [hbeq]
      simp
  · intro mv hmem
    have hmve : mv = ⟨x, y, i, j⟩ := by simpa using hmem
    subst hmve
    exact ⟨hi, hj⟩
  · rw [← h2]
    exact h1
  · rw [← h2]
    exact AllClear_of h4 hscan

/-! ### The balanced-effect lemma for one placement attempt -/

theorem tryPlace_ok {P : Puzzle} {x y : Nat}
    {rec : SState → Option (Bool × SState)}
    (hrec : ∀ st1 res, rec st1 = some res →
      Ok P x y st1 res.2 ∧ (res.1 = true → res.2 = st1 ∧ ScanClear P st1.s x y))
    {i j : Nat} (hi : i < P.pieces.length)
    (hj : j < (P.pieces.getD i []).length)
    {stL st4 : SState} (hcnt : stL.pieceCounts.getD i 0 ≠ 0)
    (h : tryPlace rec P x y i j stL = some st4) :
    Ok P x y stL st4 := by
  simp only [tryPlace] at h
  by_cases hov : stL.s &&& moveFoot P ⟨x, y, i, j⟩ ≠ 0
  · rw [if_pos hov] at h
    cases h
    exact Ok_refl P x y stL
  · rw [if_neg hov] at h
    have hov2 : stL.s &&& moveFoot P ⟨x, y, i, j⟩ = 0 := by omega
    by_cases hsp : andNot (moveFoot P ⟨x, y, i, j⟩) P.mask ≠ 0
    · rw [if_pos hsp] at h
      cases h
      exact Ok_refl P x y stL
    · rw [if_neg hsp] at h
      have hsp2 : andNot (moveFoot P ⟨x, y, i, j⟩) P.mask = 0 := by omega
      rcases hr : rec (SState.mk (decAt stL.pieceCounts i)
          (stL.s ||| moveFoot P ⟨x, y, i, j⟩)
          (stL.moves ++ [⟨x, y, i, j⟩]) stL.solutions) with _ | r
      · rw [hr] at h
        exact absurd h (by simp)
      · rw [hr] at h
        obtain ⟨b, st2⟩ := r
        obtain ⟨hok2, htrue⟩ := hrec _ (b, st2) hr
        obtain ⟨hc2, hs2, hm2, new, hsolu, hgood⟩ := hok2
        simp only [Option.some_bind] at h
        cases b with
        | false =>
          simp only [cond_false] at h
          cases h
          refine ⟨?_, ?_, ?_, new, ?_, ?_⟩
          · show incAt st2.pieceCounts i = stL.pieceCounts
            rw [hc2]
            exact incAt_decAt hcnt
          · show andNot st2.s (moveFoot P ⟨x, y, i, j⟩) = stL.s
            rw [hs2]
            exact andNot_lor_cancel hov2
          · show st2.moves.dropLast = stL.moves
            rw [hm2]
            exact List.dropLast_concat
          · exact hsolu
          · intro hinv sol hmem
            exact SolGood_unplace hi hj hcnt
              (hgood (EntryInv_place hinv hov2 hsp2) sol hmem)
        | true =>
          obtain ⟨hst2, hscan⟩ := htrue rfl
          subst hst2
          simp only [cond_true] at h
          cases h
          refine ⟨?_, ?_, ?_, [stL.moves ++ [⟨x, y, i, j⟩]], ?_, ?_⟩
          · exact incAt_decAt hcnt
          · exact andNot_lor_cancel hov2
          · exact List.dropLast_concat
          · rfl
          · intro hinv sol hmem
            have hsole : sol = stL.moves ++ [⟨x, y, i, j⟩] := by simpa using hmem
            subst hsole
            exact SolGood_record hinv hov2 hsp2 hi hj hcnt hscan

/-! ### Chaining balanced steps through the enumeration loops -/

theorem foldlM_ok {α : Type} (P : Puzzle) (x y : Nat) (C : List Nat)
    (step : SState → α → Option SState) :
    ∀ (l : List α),
      (∀ a ∈ l, ∀ s1, s1.pieceCounts = C → ∀ s2, step s1 a = some s2 →
        Ok P x y s1 s2) →
      ∀ s1, s1.pieceCounts = C → ∀ s2, l.foldlM step s1 = some s2 →
        Ok P x y s1 s2 := by
  intro l
  induction l with
  | nil =>
    intro _ s1 _ s2 h
    rw [List.foldlM_nil] at h
    cases h
    exact Ok_refl P x y s1
  | cons a rest ih =>
    intro hstep s1 hC s2 h
    rw [List.foldlM_cons] at h
    rcases hs : step s1 a with _ | smid
    · rw [hs] at h
      exact absurd h (by simp)
    · rw [hs] at h
      simp only [Option.bind_eq_bind, Option.some_bind] at h
      have hok1 := hstep a (List.mem_cons_self a rest) s1 hC smid hs
      have hCmid : smid.pieceCounts = C := by rw [hok1.1, hC]
      exact Ok_trans hok1
        (ih (fun b hb => hstep b (List.mem_cons_of_mem a hb)) smid hCmid s2 h)

theorem loopJ_ok {P : Puzzle} {x y : Nat}
    {rec : SState → Option (Bool × SState)}
    (hrec : ∀ st1 res, rec st1 = some res →
      Ok P x y st1 res.2 ∧ (res.1 = true → res.2 = st1 ∧ ScanClear P st1.s x y))
    {i : Nat} (hi : i < P.pieces.length)
    {j0 : Nat} {stL st2 : SState} (hcnt : stL.pieceCounts.getD i 0 ≠ 0)
    (h : loopJ rec P x y i
      (List.range' j0 ((P.pieces.getD i []).length - j0)) stL = some st2) :
    Ok P x y stL st2 := by
  rw [loopJ] at h
  refine foldlM_ok P x y stL.pieceCounts _ _ ?_ stL rfl st2 h
  intro j hjm s1 hC s2 hstep
  have hj : j < (P.pieces.getD i []).length := by
    have := List.mem_range'_1.mp hjm
    omega
  refine tryPlace_ok hrec hi hj ?_ hstep
  rw [hC]
  exact hcnt

theorem loopI_ok {P : Puzzle} {x y : Nat}
    {rec : SState → Option (Bool × SState)}
    (hrec : ∀ st1 res, rec st1 = some res →
      Ok P x y st1 res.2 ∧ (res.1 = true → res.2 = st1 ∧ ScanClear P st1.s x y))
    {sameCoords : Option Move} {i0 : Nat} {st st2 : SState}
    (h : loopI rec P sameCoords x y
      (List.range' i0 (P.pieces.length - i0)) st = some st2) :
    Ok P x y st st2 := by
  rw [loopI] at h
  refine foldlM_ok P x y st.pieceCounts _ _ ?_ st rfl st2 h
  intro i hmem s1 hC s2 hstep
  by_cases hz : s1.pieceCounts.getD i 0 = 0
  · rw [if_pos hz] at hstep
    cases hstep
    exact Ok_refl P x y s1
  · rw [if_neg hz] at hstep
    have hi : i < P.pieces.length := by
      have := List.mem_range'_1.mp hmem
      omega
    exact loopJ_ok hrec hi hz hstep

/-! ### The master lemma: every terminating `solve0` call is balanced
and only appends good solutions -/

theorem solve0_ok (P : Puzzle) :
    ∀ (fuel : Nat) (st : SState) (x y : Nat) (res : Bool × SState),
      solve0 P fuel st x y = some res →
      Ok P x y st res.2 ∧
        (res.1 = true → res.2 = st ∧ ScanClear P st.s x y) := by
  intro fuel
  induction fuel with
  | zero =>
    intro st x y res h
    exact absurd h (by simp [solve0])
  | succ fuel ih =>
    intro st x y res h
    simp only [solve0] at h
    by_cases h1 : P.width ≤ x
    · rw [if_pos h1] at h
      obtain ⟨hok, htrue⟩ := ih st 0 (y + 1) res h
      constructor
      · refine Ok_mono ?_ hok
        intro ⟨e1, e2, e3, e4⟩
        exact ⟨e1, e2, e3, PreClear_wrap h1 e4⟩
      · intro hb
        obtain ⟨hst, hscan⟩ := htrue hb
        exact ⟨hst, ScanClear_wrap h1 hscan⟩
    · rw [if_neg h1] at h
      by_cases h2 : P.height ≤ y
      · rw [if_pos h2] at h
        cases h
        exact ⟨Ok_refl P x y st, fun _ => ⟨rfl, ScanClear_leaf h2⟩⟩
      · rw [if_neg h2] at h
        by_cases h3 : (P.isEmpty x y || P.isComplete st.s x y) = true
        · rw [if_pos h3] at h
          have htile := Bool.or_eq_true_iff.mp h3
          obtain ⟨hok, htrue⟩ := ih st (x + 1) y res h
          constructor
          · refine Ok_mono ?_ hok
            intro ⟨e1, e2, e3, e4⟩
            exact ⟨e1, e2, e3, PreClear_step htile e4⟩
          · intro hb
            obtain ⟨hst, hscan⟩ := htrue hb
            exact ⟨hst, ScanClear_step htile hscan⟩
        · rw [if_neg h3] at h
          rcases hL : loopI (fun st1 => solve0 P fuel st1 x y) P
              (lastSame x y st.moves) x y
              (List.range' (resumeI (lastSame x y st.moves))
                (P.pieces.length - resumeI (lastSame x y st.moves))) st
            with _ | st1
          · rw [hL] at h
            exact absurd h (by simp)
          · rw [hL] at h
            simp only [Option.map_some'] at h
            cases h
            refine ⟨?_, ?_⟩
            · exact loopI_ok (fun st1 r hcall => ih st1 x y r hcall) hL
            · intro hb
              exact absurd hb (by simp)

/-! ### Claim C7: coverage invariant and strict stack discipline -/

/-- Claim C7 (confirmed).  First part: every terminating `solve0` call
returns with the coverage mask restored exactly to its entry value (the
per-placement undo `state.s &= ~mask` therefore restores the coverage
after every tried placement, in strict stack discipline).  Second part:
the two acceptance guards of `tryPlace` — no overlap with the coverage,
no spill outside the membership mask — guarantee that an accepted
placement keeps the coverage inside the membership mask, and that the
undo of that placement restores the previous coverage exactly; hence a
coverage that starts inside the membership mask stays inside it at all
times. -/
theorem claim_C7 (P : Puzzle) :
    (∀ (fuel : Nat) (st : SState) (x y : Nat) (res : Bool × SState),
        solve0 P fuel st x y = some res → res.2.s = st.s) ∧
    (∀ (st : SState) (x y i j : Nat), st.s &&& P.mask = st.s →
        st.s &&& moveFoot P ⟨x, y, i, j⟩ = 0 →
        andNot (moveFoot P ⟨x, y, i, j⟩) P.mask = 0 →
        (st.s ||| moveFoot P ⟨x, y, i, j⟩) &&& P.mask =
            st.s ||| moveFoot P ⟨x, y, i, j⟩ ∧
          andNot (st.s ||| moveFoot P ⟨x, y, i, j⟩) (moveFoot P ⟨x, y, i, j⟩) =
            st.s) := by
  constructor
  · intro fuel st x y res h
    exact ((solve0_ok P fuel st x y res h).1).2.1
  · intro st x y i j h1 h2 h3
    exact ⟨sub_lor_sub h1 (foot_sub_mask h3), andNot_lor_cancel h2⟩

/-- Witness for C7: a terminating concrete run (the empty 2×2 board) with
the coverage restored, and a concrete accepted placement on the full 2×2
board. -/
theorem claim_C7_witness :
    ((solve0 (mkPuzzle 2 2 []) 20 (SState.mk [0, 0, 0, 0, 0] 0 [] []) 0 0 =
        some (true, SState.mk [0, 0, 0, 0, 0] 0 [] [])) ∧
      (true, SState.mk [0, 0, 0, 0, 0] 0 [] []).2.s =
        (SState.mk [0, 0, 0, 0, 0] 0 [] []).s) ∧
    ((SState.mk [0, 0, 4, 0, 0] 0 [] []).s |||
          moveFoot (mkPuzzle 2 2 [(0, 0), (1, 0), (0, 1), (1, 1)]) ⟨0, 0, 2, 0⟩) &&&
        (mkPuzzle 2 2 [(0, 0), (1, 0), (0, 1), (1, 1)]).mask =
        (SState.mk [0, 0, 4, 0, 0] 0 [] []).s |||
          moveFoot (mkPuzzle 2 2 [(0, 0), (1, 0), (0, 1), (1, 1)]) ⟨0, 0, 2, 0⟩ ∧
      andNot
          ((SState.mk [0, 0, 4, 0, 0] 0 [] []).s |||
            moveFoot (mkPuzzle 2 2 [(0, 0), (1, 0), (0, 1), (1, 1)]) ⟨0, 0, 2, 0⟩)
          (moveFoot (mkPuzzle 2 2 [(0, 0), (1, 0), (0, 1), (1, 1)]) ⟨0, 0, 2, 0⟩) =
        (SState.mk [0, 0, 4, 0, 0] 0 [] []).s :=
  ⟨⟨by decide,
    (claim_C7 (mkPuzzle 2 2 [])).1 20 (SState.mk [0, 0, 0, 0, 0] 0 [] []) 0 0
      (true, SState.mk [0, 0, 0, 0, 0] 0 [] []) (by decide)⟩,
   (claim_C7 (mkPuzzle 2 2 [(0, 0), (1, 0), (0, 1), (1, 1)])).2
      (SState.mk [0, 0, 4, 0, 0] 0 [] []) 0 0 2 0 (by decide) (by decide) (by decide)⟩

/-! ### Claim C10: the frame effect of `solve` on the piece counters -/

/-- Claim C10 (confirmed).  Every terminating `solve0` call returns with
the piece-counter list restored element-wise to its entry value (each
decrement is matched by the restoring increment), and the move stack
likewise.  `solve` passes the caller-supplied `pieceCounts` array to
`solve0` at `(0, 0)`, so after `solve` returns the caller array is
element-wise equal to its contents at the call.  The board fields
(membership mask, width, height, fine-cell count) are never written by
the search: in this embedding `solve0` and `solve` only read `P`, which
the type of the definitions makes evident. -/
theorem claim_C10 (P : Puzzle) :
    ∀ (pieceCounts : List Nat) (fuel : Nat) (res : Bool × SState),
      solve0 P fuel (SState.mk pieceCounts 0 [] []) 0 0 = some res →
      res.2.pieceCounts = pieceCounts := by
  intro pieceCounts fuel res h
  exact ((solve0_ok P fuel (SState.mk pieceCounts 0 [] []) 0 0 res h).1).1

/-- Witness for C10: the full 2×2 board with counts `[0,0,4,0,0]`; the
search finds a tiling and the counter array ends up restored. -/
theorem claim_C10_witness :
    solve0 (mkPuzzle 2 2 [(0, 0), (1, 0), (0, 1), (1, 1)]) 100
        (SState.mk [0, 0, 4, 0, 0] 0 [] []) 0 0 =
      some (false, SState.mk [0, 0, 4, 0, 0] 0 []
        [[⟨0, 0, 2, 0⟩, ⟨0, 0, 2, 3⟩, ⟨1, 0, 2, 2⟩, ⟨0, 1, 2, 1⟩]]) ∧
    (false, SState.mk [0, 0, 4, 0, 0] 0 []
        [[⟨0, 0, 2, 0⟩, ⟨0, 0, 2, 3⟩, ⟨1, 0, 2, 2⟩, ⟨0, 1, 2, 1⟩]]).2.pieceCounts =
      [0, 0, 4, 0, 0] :=
  ⟨by decide,
   claim_C10 (mkPuzzle 2 2 [(0, 0), (1, 0), (0, 1), (1, 1)]) [0, 0, 4, 0, 0] 100
     (false, SState.mk [0, 0, 4, 0, 0] 0 []
       [[⟨0, 0, 2, 0⟩, ⟨0, 0, 2, 3⟩, ⟨1, 0, 2, 2⟩, ⟨0, 1, 2, 1⟩]]) (by decide)⟩

/-! ### Structure of the membership mask for in-bounds coordinate lists -/

theorem foldl_or_mono {α : Type} (f : α → Nat) :
    ∀ (l : List α) (s k : Nat), s.testBit k = true →
      (l.foldl (fun s a => s ||| f a) s).testBit k = true := by
  intro l
  induction l with
  | nil => intro s k hk; exact hk
  | cons a rest ih =>
    intro s k hk
    rw [List.foldl_cons]
    exact ih _ k (by rw [Nat.testBit_lor, hk]; rfl)

theorem testBit_foldl_or {α : Type} (f : α → Nat) :
    ∀ (l : List α) (s k : Nat),
      (l.foldl (fun s a => s ||| f a) s).testBit k =
        (s.testBit k || l.any (fun a => (f a).testBit k)) := by
  intro l
  induction l with
  | nil => intro s k; simp
  | cons a rest ih =>
    intro s k
    rw [List.foldl_cons, ih, Nat.testBit_lor, List.any_cons, Bool.or_assoc]

theorem elem_sub_foldl_or {α : Type} (f : α → Nat) (l : List α) (s : Nat)
    (a : α) (ha : a ∈ l) :
    f a &&& (l.foldl (fun s x => s ||| f x) s) = f a := by
  rw [land_eq_left_iff]
  intro k hk
  rw [testBit_foldl_or]
  have : l.any (fun x => (f x).testBit k) = true :=
    List.any_eq_true.mpr ⟨a, ha, hk⟩
  rw [this]
  simp

/-- The union of the fine-cell groups of a coordinate list. -/
def orGroups (w : Nat) (S : List (Nat × Nat)) : Nat :=
  S.foldl (fun m c => m ||| tileBits w c.1 c.2) 0

theorem testBit_orGroups (w : Nat) (S : List (Nat × Nat)) (k : Nat) :
    (orGroups w S).testBit k =
      S.any (fun c => (tileBits w c.1 c.2).testBit k) := by
  rw [orGroups, testBit_foldl_or]
  simp

theorem testBit_tileBits {w x y k : Nat} :
    (tileBits w x y).testBit k = true ↔
      k = 4 * y * w + 2 * x ∨ k = 4 * y * w + 2 * x + 1 ∨
      k = 4 * y * w + 2 * x + 2 * w ∨ k = 4 * y * w + 2 * x + 2 * w + 1 := by
  simp only [tileBits, Nat.testBit_lor, testBit_one_shift, Bool.or_eq_true,
    decide_eq_true_eq]
  constructor <;> intro hc <;> omega

theorem tileBits_decomp {w x y k : Nat} (h : (tileBits w x y).testBit k = true) :
    ∃ f g, f ≤ 1 ∧ g ≤ 1 ∧ k = (2 * y + f) * (2 * w) + (2 * x + g) := by
  rcases testBit_tileBits.mp h with h | h | h | h
  · exact ⟨0, 0, by omega, by omega, by rw [h]; ring⟩
  · exact ⟨0, 1, by omega, by omega, by rw [h]; ring⟩
  · exact ⟨1, 0, by omega, by omega, by rw [h]; ring⟩
  · exact ⟨1, 1, by omega, by omega, by rw [h]; ring⟩

theorem tileBits_inj {w x y c d k : Nat} (hx : x < w) (hc : c < w)
    (h1 : (tileBits w x y).testBit k = true)
    (h2 : (tileBits w c d).testBit k = true) : x = c ∧ y = d := by
  obtain ⟨f1, g1, hf1, hg1, k1⟩ := tileBits_decomp h1
  obtain ⟨f2, g2, hf2, hg2, k2⟩ := tileBits_decomp h2
  have hw : 0 < 2 * w := by omega
  have d1 : k / (2 * w) = 2 * y + f1 := by
    rw [k1, Nat.mul_comm (2 * y + f1) (2 * w), Nat.mul_add_div hw,
      Nat.div_eq_of_lt (by omega)]
    omega
  have d2 : k / (2 * w) = 2 * d + f2 := by
    rw [k2, Nat.mul_comm (2 * d + f2) (2 * w), Nat.mul_add_div hw,
      Nat.div_eq_of_lt (by omega)]
    omega
  have m1 : k % (2 * w) = 2 * x + g1 := by
    rw [k1, Nat.mul_comm (2 * y + f1) (2 * w), Nat.mul_add_mod,
      Nat.mod_eq_of_lt (by omega)]
  have m2 : k % (2 * w) = 2 * c + g2 := by
    rw [k2, Nat.mul_comm (2 * d + f2) (2 * w), Nat.mul_add_mod,
      Nat.mod_eq_of_lt (by omega)]
  omega

theorem anchor_mem_orGroups {w : Nat} {S : List (Nat × Nat)}
    (hS : ∀ c ∈ S, c.1 < w) {a b : Nat} (ha : a < w) :
    (orGroups w S).testBit (4 * b * w + 2 * a) = true ↔ (a, b) ∈ S := by
  rw [testBit_orGroups, List.any_eq_true]
  constructor
  · rintro ⟨c, hcS, hbit⟩
    obtain ⟨hx, hy⟩ := tileBits_inj (hS c hcS) ha hbit (testBit_anchor_tileBits w a b)
    obtain ⟨c1, c2⟩ := c
    simp only at hx hy
    rw [← hx, ← hy]
    exact hcS
  · intro hmem
    exact ⟨(a, b), hmem, testBit_anchor_tileBits w a b⟩

theorem land_single_eq_zero {a p : Nat} (h : a.testBit p = false) :
    a &&& (1 <<< p) = 0 := by
  by_contra hne
  rw [testBit_of_land_single hne] at h
  exact Bool.noConfusion h

theorem build_repr (w h : Nat) :
    ∀ (coords : List (Nat × Nat)), (∀ c ∈ coords, c.1 < w ∧ c.2 < h) →
    ∀ (S : List (Nat × Nat)), (∀ c ∈ S, c.1 < w ∧ c.2 < h) →
      S.Pairwise (· ≠ ·) →
      ∃ S2 : List (Nat × Nat), (∀ c ∈ S2, c.1 < w ∧ c.2 < h) ∧
        S2.Pairwise (· ≠ ·) ∧
        coords.foldl (addCoord w) (orGroups w S, 4 * S.length) =
          (orGroups w S2, 4 * S2.length) := by
  intro coords
  induction coords with
  | nil =>
    intro _ S hS hdist
    exact ⟨S, hS, hdist, by rw [List.foldl_nil]⟩
  | cons c rest ih =>
    intro hin S hS hdist
    obtain ⟨c1, c2⟩ := c
    have hc1 : c1 < w ∧ c2 < h := hin (c1, c2) (List.mem_cons_self _ _)
    have hSw : ∀ c ∈ S, c.1 < w := fun c hc => (hS c hc).1
    rw [List.foldl_cons]
    by_cases hmem : (c1, c2) ∈ S
    · have hbit : (orGroups w S).testBit (4 * c2 * w + 2 * c1) = true :=
        (anchor_mem_orGroups hSw hc1.1).mpr hmem
      have hstep : addCoord w (orGroups w S, 4 * S.length) (c1, c2) =
          (orGroups w S, 4 * S.length) := by
        simp only [addCoord]
        rw [if_pos (land_single_ne_zero hbit)]
      rw [hstep]
      exact ih (fun c hc => hin c (List.mem_cons_of_mem _ hc)) S hS hdist
    · have hbit : (orGroups w S).testBit (4 * c2 * w + 2 * c1) = false := by
        rw [← Bool.not_eq_true]
        intro hb
        exact hmem ((anchor_mem_orGroups hSw hc1.1).mp hb)
      have hOG : orGroups w (S ++ [(c1, c2)]) =
          orGroups w S ||| tileBits w c1 c2 := by
        simp only [orGroups, List.foldl_append, List.foldl_cons, List.foldl_nil]
      have hlen : (S ++ [(c1, c2)]).length = S.length + 1 := by
        rw [List.length_append, List.length_cons, List.length_nil]
      have hstep : addCoord w (orGroups w S, 4 * S.length) (c1, c2) =
          (orGroups w (S ++ [(c1, c2)]), 4 * (S ++ [(c1, c2)]).length) := by
        simp only [addCoord]
        rw [if_neg (by
          simp only [ne_eq, Decidable.not_not]
          exact land_single_eq_zero hbit)]
        rw [hOG, hlen]
        rw [show 4 * S.length + 4 = 4 * (S.length + 1) from by omega]
      rw [hstep]
      refine ih (fun c hc => hin c (List.mem_cons_of_mem _ hc)) (S ++ [(c1, c2)])
        ?_ ?_
      · intro c hc
        rcases List.mem_append.mp hc with hcS | hcNew
        · exact hS c hcS
        · have : c = (c1, c2) := by simpa using hcNew
          rw [this]
          exact hc1
      · rw [List.pairwise_append]
        refine ⟨hdist, List.pairwise_singleton _ _, ?_⟩
        intro a haS b hb
        have hbe : b = (c1, c2) := by simpa using hb
        rw [hbe]
        intro hcontra
        rw [hcontra] at haS
        exact hmem haS

/-- The constructed board of an in-bounds coordinate list: the membership
mask is the union of the fine-cell groups of a duplicate-free in-bounds
list `S`, and the fine-cell count is `4 * S.length`. -/
theorem mkPuzzle_repr (w h : Nat) (coords : List (Nat × Nat))
    (hin : ∀ c ∈ coords, c.1 < w ∧ c.2 < h) :
    ∃ S : List (Nat × Nat), (∀ c ∈ S, c.1 < w ∧ c.2 < h) ∧
      S.Pairwise (· ≠ ·) ∧
      (mkPuzzle w h coords).mask = orGroups w S ∧
      (mkPuzzle w h coords).tileCount = 4 * S.length := by
  obtain ⟨S2, h1, h2, h3⟩ :=
    build_repr w h coords hin [] (by intro c hc; exact absurd hc (List.not_mem_nil c))
      List.Pairwise.nil
  refine ⟨S2, h1, h2, ?_, ?_⟩
  · show (coords.foldl (addCoord w) (0, 0)).1 = _
    rw [show ((0 : Nat), (0 : Nat)) = (orGroups w [], 4 * List.length []) from rfl, h3]
  · show (coords.foldl (addCoord w) (0, 0)).2 = _
    rw [show ((0 : Nat), (0 : Nat)) = (orGroups w [], 4 * List.length []) from rfl, h3]

/-! ### Claim C1: disjoint full coverage of returned solutions -/

theorem land_antisymm {a b : Nat} (h1 : a &&& b = a) (h2 : b &&& a = b) :
    a = b := by
  apply Nat.eq_of_testBit_eq
  intro k
  rw [land_eq_left_iff] at h1 h2
  cases ha : a.testBit k
  · cases hb : b.testBit k
    · rfl
    · rw [h2 k hb] at ha
      exact Bool.noConfusion ha
  · rw [h1 k ha]

theorem orGroups_bit_tile {w : Nat} {S : List (Nat × Nat)} {k : Nat}
    (h : (orGroups w S).testBit k = true) :
    ∃ c ∈ S, (tileBits w c.1 c.2).testBit k = true := by
  rw [testBit_orGroups] at h
  exact List.any_eq_true.mp h

theorem isEmpty_eq_false_of_anchor {P : Puzzle} {a b : Nat}
    (h : P.mask.testBit (4 * b * P.width + 2 * a) = true) :
    P.isEmpty a b = false := by
  simp only [Puzzle.isEmpty, decide_eq_false_iff_not]
  exact land_single_ne_zero h

theorem EntryInv_init (P : Puzzle) (counts : List Nat) :
    EntryInv P (SState.mk counts 0 [] []) 0 0 :=
  ⟨Nat.zero_and _, rfl, List.Pairwise.nil,
   fun a b _ _ hlt => absurd hlt (by omega)⟩

/-- Every solution produced by a terminating top-level `solve0` run obeys
the count bound, uses valid piece indices, has pairwise disjoint
footprints inside the membership mask, and settles every in-bounds
tile. -/
theorem solve0_run_good (P : Puzzle) (counts : List Nat) (fuel : Nat)
    (res : Bool × SState)
    (h : solve0 P fuel (SState.mk counts 0 [] []) 0 0 = some res) :
    ∀ sol ∈ res.2.solutions,
      (∀ i, countType sol i ≤ counts.getD i 0) ∧
      (∀ mv ∈ sol, mv.i < P.pieces.length ∧
        mv.j < (P.pieces.getD mv.i []).length) ∧
      DisjointMoves P sol ∧
      coverAll P sol &&& P.mask = coverAll P sol ∧
      AllClear P (coverAll P sol) := by
  obtain ⟨hok, _⟩ := solve0_ok P fuel _ 0 0 res h
  obtain ⟨_, _, _, new, hsols, hgood⟩ := hok
  have hsols2 : res.2.solutions = new := hsols.trans rfl
  intro sol hmem
  rw [hsols2] at hmem
  obtain ⟨ext, hsol, hcnt, hval, hdisj, hsub, hall⟩ :=
    hgood (EntryInv_init P counts) sol hmem
  have hsol2 : sol = ext := hsol.trans rfl
  subst hsol2
  exact ⟨hcnt, hval, hdisj, hsub, hall⟩

/-- Every solution recorded by a terminating top-level run on an
in-bounds board has pairwise disjoint footprints whose union is exactly
the membership mask. -/
theorem run_cover_eq_mask (w h fuel : Nat) (coords : List (Nat × Nat))
    (hin : ∀ c ∈ coords, c.1 < w ∧ c.2 < h) (counts : List Nat)
    (res : Bool × SState)
    (hrn : solve0 (mkPuzzle w h coords) fuel (SState.mk counts 0 [] []) 0 0 =
      some res) :
    ∀ sol ∈ res.2.solutions,
      DisjointMoves (mkPuzzle w h coords) sol ∧
      coverAll (mkPuzzle w h coords) sol = (mkPuzzle w h coords).mask := by
  intro sol hmem
  obtain ⟨hcnt, hval, hdisj, hsub, hall⟩ :=
    solve0_run_good _ counts fuel res hrn sol hmem
  refine ⟨hdisj, ?_⟩
  obtain ⟨S, hSin, hSdist, hmask, htc⟩ := mkPuzzle_repr w h coords hin
  apply land_antisymm hsub
  rw [land_eq_left_iff]
  intro k hk
  rw [show (mkPuzzle w h coords).mask = orGroups w S from hmask] at hk
  obtain ⟨c, hcS, hck⟩ := orGroups_bit_tile hk
  obtain ⟨c1, c2⟩ := c
  have hbounds := hSin (c1, c2) hcS
  have hanc : (mkPuzzle w h coords).mask.testBit
      (4 * c2 * (mkPuzzle w h coords).width + 2 * c1) = true := by
    rw [hmask]
    exact (anchor_mem_orGroups (fun c hc => (hSin c hc).1) hbounds.1).mpr hcS
  have hne := isEmpty_eq_false_of_anchor hanc
  have hclear := hall c1 c2 hbounds.1 hbounds.2
  rcases hclear with hemp | hcomp
  · rw [hne] at hemp
    exact Bool.noConfusion hemp
  · rw [isComplete_eq_true_iff] at hcomp
    have hterm : tileBits w c1 c2 &&&
        coverAll (mkPuzzle w h coords) sol = tileBits w c1 c2 := by
      rw [Nat.land_comm]
      exact hcomp
    rw [land_eq_left_iff] at hterm
    exact hterm k hck

/-- Claim C1, amended: restricted to boards whose coordinate list is
entirely in bounds (the constructor applies no bounds check, so an
out-of-bounds coordinate puts fine-cell bits into the membership mask
that the row-major scan never visits; see the counterexample).  For such
boards, every Solution in any list returned by `solve` — with explicit
piece counts or with the default preset — has pairwise disjoint
footprints whose union equals the membership mask exactly. -/
theorem claim_C1_amended (w h fuel : Nat) (coords : List (Nat × Nat))
    (hin : ∀ c ∈ coords, c.1 < w ∧ c.2 < h)
    (pieceCounts? : Option (List Nat)) (sols : List (List Move))
    (hrun : solve (mkPuzzle w h coords) fuel pieceCounts? = some sols) :
    ∀ sol ∈ sols,
      DisjointMoves (mkPuzzle w h coords) sol ∧
      coverAll (mkPuzzle w h coords) sol = (mkPuzzle w h coords).mask := by
  have hmain := run_cover_eq_mask w h fuel coords hin
  cases pieceCounts? with
  | some counts =>
    simp only [solve] at hrun
    by_cases hne : (mkPuzzle w h coords).tileCount ≠ pieceCountTotal counts
    · rw [if_pos hne] at hrun
      cases hrun
      intro sol hmem
      exact absurd hmem (List.not_mem_nil sol)
    · rw [if_neg hne] at hrun
      rcases hrn : solve0 (mkPuzzle w h coords) fuel
          (SState.mk counts 0 [] []) 0 0 with _ | res
      · rw [hrn] at hrun
        exact absurd hrun (by simp)
      · rw [hrn] at hrun
        simp only [Option.map_some'] at hrun
        cases hrun
        exact hmain counts res hrn
  | none =>
    simp only [solve] at hrun
    rcases hrn : solve0 (mkPuzzle w h coords) fuel
        (SState.mk defaultCounts 0 [] []) 0 0 with _ | res
    · rw [hrn] at hrun
      exact absurd hrun (by simp)
    · rw [hrn] at hrun
      simp only [Option.map_some'] at hrun
      cases hrun
      exact hmain defaultCounts res hrn

/-- Witness for the amended C1: the tiling of the full 2×2 board found by
the search. -/
theorem claim_C1_amended_witness :
    DisjointMoves (mkPuzzle 2 2 [(0, 0), (1, 0), (0, 1), (1, 1)])
        [⟨0, 0, 2, 0⟩, ⟨0, 0, 2, 3⟩, ⟨1, 0, 2, 2⟩, ⟨0, 1, 2, 1⟩] ∧
      coverAll (mkPuzzle 2 2 [(0, 0), (1, 0), (0, 1), (1, 1)])
          [⟨0, 0, 2, 0⟩, ⟨0, 0, 2, 3⟩, ⟨1, 0, 2, 2⟩, ⟨0, 1, 2, 1⟩] =
        (mkPuzzle 2 2 [(0, 0), (1, 0), (0, 1), (1, 1)]).mask :=
  claim_C1_amended 2 2 100 [(0, 0), (1, 0), (0, 1), (1, 1)] (by decide)
    (some [0, 0, 4, 0, 0])
    [[⟨0, 0, 2, 0⟩, ⟨0, 0, 2, 3⟩, ⟨1, 0, 2, 2⟩, ⟨0, 1, 2, 1⟩]] (by decide)
    [⟨0, 0, 2, 0⟩, ⟨0, 0, 2, 3⟩, ⟨1, 0, 2, 2⟩, ⟨0, 1, 2, 1⟩] (by decide)

/-- Counterexample to claim C1 as stated: with the out-of-bounds
coordinate (0, 2) in the list, the board of width 2 and height 2 gets
mask bits the scan never visits; `solve` with counts `[0, 0, 5, 0, 0]`
(which passes the fast-fail check, 5 × 4 = 20 = tileCount) returns a
solution whose footprint union is 65535 ≠ mask 3407871. -/
theorem claim_C1_cex :
    ∃ sol ∈ (solve (mkPuzzle 2 2 [(0, 0), (1, 0), (0, 1), (1, 1), (0, 2)]) 200
        (some [0, 0, 5, 0, 0])).getD [],
      coverAll (mkPuzzle 2 2 [(0, 0), (1, 0), (0, 1), (1, 1), (0, 2)]) sol ≠
        (mkPuzzle 2 2 [(0, 0), (1, 0), (0, 1), (1, 1), (0, 2)]).mask := by
  decide

/-! ### Counting fine cells (for claim C2) -/

/-- Number of set bits of `n` at positions below `N`. -/
def bcount (N n : Nat) : Nat :=
  ((Finset.range N).filter (fun k => n.testBit k = true)).card

theorem bcount_zero (N : Nat) : bcount N 0 = 0 := by
  simp [bcount]

theorem bcount_lor_le (N a b : Nat) :
    bcount N (a ||| b) ≤ bcount N a + bcount N b := by
  have hfe : (Finset.range N).filter (fun k => (a ||| b).testBit k = true) =
      ((Finset.range N).filter (fun k => a.testBit k = true)) ∪
      ((Finset.range N).filter (fun k => b.testBit k = true)) := by
    rw [← Finset.filter_or]
    apply Finset.filter_congr
    intro k _
    simp [Nat.testBit_lor]
  rw [bcount, hfe]
  exact Finset.card_union_le _ _

theorem bcount_lor_disjoint {a b : Nat} (N : Nat) (hd : a &&& b = 0) :
    bcount N (a ||| b) = bcount N a + bcount N b := by
  have hfe : (Finset.range N).filter (fun k => (a ||| b).testBit k = true) =
      ((Finset.range N).filter (fun k => a.testBit k = true)) ∪
      ((Finset.range N).filter (fun k => b.testBit k = true)) := by
    rw [← Finset.filter_or]
    apply Finset.filter_congr
    intro k _
    simp [Nat.testBit_lor]
  rw [bcount, hfe]
  apply Finset.card_union_of_disjoint
  rw [Finset.disjoint_left]
  intro k hk1 hk2
  simp only [Finset.mem_filter] at hk1 hk2
  have := (land_eq_zero_iff.mp hd) k hk1.2
  rw [hk2.2] at this
  exact Bool.noConfusion this

theorem bcount_shiftLeft_le (N m p : Nat) :
    bcount N (m <<< p) ≤ bcount N m := by
  apply Finset.card_le_card_of_injOn (fun t => t - p)
  · intro t ht
    simp only [Finset.mem_filter, Finset.mem_range] at ht ⊢
    obtain ⟨htN, htb⟩ := ht
    rw [Nat.testBit_shiftLeft] at htb
    rcases Bool.and_eq_true_iff.mp htb with ⟨hge, hbit⟩
    exact ⟨by omega, hbit⟩
  · intro t1 h1 t2 h2 he
    simp only [Finset.coe_filter, Set.mem_setOf_eq, Finset.mem_range] at h1 h2
    rw [Nat.testBit_shiftLeft] at h1 h2
    have hg1 := (Bool.and_eq_true_iff.mp h1.2).1
    have hg2 := (Bool.and_eq_true_iff.mp h2.2).1
    simp only [ge_iff_le, decide_eq_true_eq] at hg1 hg2
    simp only at he
    omega

theorem bcount_mono_bound {m : Nat} (N B : Nat) (hm : m < 2 ^ B) :
    bcount N m ≤ bcount B m := by
  apply Finset.card_le_card
  intro k hk
  simp only [Finset.mem_filter, Finset.mem_range] at hk ⊢
  obtain ⟨hkN, hkb⟩ := hk
  refine ⟨?_, hkb⟩
  by_contra hge
  have := Nat.testBit_implies_ge hkb
  have : 2 ^ B ≤ 2 ^ k := Nat.pow_le_pow_right (by omega) (by omega)
  omega

theorem bcount_single {p N : Nat} (h : p < N) : bcount N (1 <<< p) = 1 := by
  have hfe : (Finset.range N).filter (fun k => (1 <<< p).testBit k = true) =
      {p} := by
    apply Finset.ext
    intro k
    simp only [Finset.mem_filter, Finset.mem_range, testBit_one_shift,
      decide_eq_true_eq, Finset.mem_singleton]
    constructor
    · intro hk
      omega
    · intro hk
      omega
  rw [bcount, hfe, Finset.card_singleton]

theorem bcount_tileBits {w h c1 c2 : Nat} (h1 : c1 < w) (h2 : c2 < h) :
    bcount (4 * w * h) (tileBits w c1 c2) = 4 := by
  have hw : 1 ≤ w := by omega
  have hbound : 4 * c2 * w + 2 * c1 + 2 * w + 1 < 4 * w * h := by
    have hc2 : c2 + 1 ≤ h := by omega
    have hstep : 4 * w * (c2 + 1) ≤ 4 * w * h := Nat.mul_le_mul_left _ hc2
    have hre : 4 * c2 * w + 4 * w = 4 * w * (c2 + 1) := by ring
    omega
  have hfe : (Finset.range (4 * w * h)).filter
      (fun k => (tileBits w c1 c2).testBit k = true) =
      insert (4 * c2 * w + 2 * c1) (insert (4 * c2 * w + 2 * c1 + 1)
        (insert (4 * c2 * w + 2 * c1 + 2 * w) {4 * c2 * w + 2 * c1 + 2 * w + 1})) := by
    apply Finset.ext
    intro k
    simp only [Finset.mem_filter, Finset.mem_range, Finset.mem_insert,
      Finset.mem_singleton]
    rw [testBit_tileBits]
    constructor
    · intro hk
      omega
    · intro hk
      omega
  rw [bcount, hfe]
  rw [Finset.card_insert_of_not_mem (by simp; try omega)]
  rw [Finset.card_insert_of_not_mem (by simp; try omega)]
  rw [Finset.card_insert_of_not_mem (by simp; try omega)]
  rw [Finset.card_singleton]

theorem foldl_or_eq_start {α : Type} (f : α → Nat) :
    ∀ (l : List α) (s : Nat),
      l.foldl (fun m a => m ||| f a) s = s ||| l.foldl (fun m a => m ||| f a) 0 := by
  intro l
  induction l with
  | nil =>
    intro s
    simp
  | cons a rest ih =>
    intro s
    rw [List.foldl_cons, List.foldl_cons, ih, ih (0 ||| f a)]
    rw [Nat.zero_or, Nat.lor_assoc]

theorem orGroups_cons (w : Nat) (c : Nat × Nat) (S : List (Nat × Nat)) :
    orGroups w (c :: S) = tileBits w c.1 c.2 ||| orGroups w S := by
  rw [orGroups, orGroups, List.foldl_cons, foldl_or_eq_start, Nat.zero_or]

theorem tileBits_land_orGroups {w : Nat} {c1 c2 : Nat} {S : List (Nat × Nat)}
    (hc : c1 < w) (hS : ∀ c ∈ S, c.1 < w) (hmem : (c1, c2) ∉ S) :
    tileBits w c1 c2 &&& orGroups w S = 0 := by
  rw [land_eq_zero_iff]
  intro k hk
  rw [← Bool.not_eq_true]
  intro hbit
  obtain ⟨c, hcS, hck⟩ := orGroups_bit_tile hbit
  obtain ⟨hx, hy⟩ := tileBits_inj hc (hS c hcS) hk hck
  obtain ⟨d1, d2⟩ := c
  simp only at hx hy
  rw [← hx, ← hy] at hcS
  exact hmem hcS

/-- The membership mask of a duplicate-free in-bounds coordinate list has
exactly four fine cells per coordinate. -/
theorem bcount_orGroups (w h : Nat) :
    ∀ (S : List (Nat × Nat)), (∀ c ∈ S, c.1 < w ∧ c.2 < h) →
      S.Pairwise (· ≠ ·) →
      bcount (4 * w * h) (orGroups w S) = 4 * S.length := by
  intro S
  induction S with
  | nil =>
    intro _ _
    simp [orGroups, bcount_zero]
  | cons c rest ih =>
    intro hin hdist
    obtain ⟨c1, c2⟩ := c
    have hc := hin (c1, c2) (List.mem_cons_self _ _)
    have hnotmem : (c1, c2) ∉ rest := by
      intro hmem
      exact (List.pairwise_cons.mp hdist).1 (c1, c2) hmem rfl
    rw [orGroups_cons,
      bcount_lor_disjoint _ (tileBits_land_orGroups hc.1
        (fun c hcm => (hin c (List.mem_cons_of_mem _ hcm)).1) hnotmem),
      bcount_tileBits hc.1 hc.2,
      ih (fun c hcm => hin c (List.mem_cons_of_mem _ hcm))
        (List.pairwise_cons.mp hdist).2]
    simp only [List.length_cons]
    ring

theorem coverAll_cons (P : Puzzle) (mv : Move) (l : List Move) :
    coverAll P (mv :: l) = moveFoot P mv ||| coverAll P l := by
  rw [coverAll, coverAll, List.foldl_cons, foldl_or_eq_start, Nat.zero_or]

theorem foot_land_coverAll_zero {P : Puzzle} {mv : Move} {l : List Move}
    (hpair : ∀ b ∈ l, moveFoot P mv &&& moveFoot P b = 0) :
    moveFoot P mv &&& coverAll P l = 0 := by
  rw [land_eq_zero_iff]
  intro k hk
  rw [← Bool.not_eq_true]
  intro hbit
  rw [coverAll, testBit_foldl_or] at hbit
  simp only [Nat.zero_testBit, Bool.false_or] at hbit
  obtain ⟨b, hbmem, hbk⟩ := List.any_eq_true.mp hbit
  have := (land_eq_zero_iff.mp (hpair b hbmem)) k hk
  rw [hbk] at this
  exact Bool.noConfusion this

theorem bcount_coverAll (P : Puzzle) (N : Nat) :
    ∀ (sol : List Move), DisjointMoves P sol →
      bcount N (coverAll P sol) =
        (sol.map (fun mv => bcount N (moveFoot P mv))).sum := by
  intro sol
  induction sol with
  | nil =>
    intro _
    simp [coverAll, bcount_zero]
  | cons mv rest ih =>
    intro hdisj
    obtain ⟨hhd, htl⟩ := List.pairwise_cons.mp hdisj
    rw [coverAll_cons, bcount_lor_disjoint N (foot_land_coverAll_zero hhd),
      ih htl, List.map_cons, List.sum_cons]

/-- Fine-cell count of a piece type. -/
def pieceCells (i : Nat) : Nat := (pieces.getD i (mkPiece 0)).tileCount

theorem boardPieces_getD (w : Nat) : ∀ i, i < 5 →
    (boardPieces w).getD i [] = boardRotations w (pieces.getD i (mkPiece 0)) := by
  intro i hi
  match i, hi with
  | 0, _ => rfl
  | 1, _ => rfl
  | 2, _ => rfl
  | 3, _ => rfl
  | 4, _ => rfl

theorem mem_boardRotations {w : Nat} {piece : Piece} {r : Nat}
    (hr : r ∈ boardRotations w piece) :
    ∃ rows ∈ piece.rotations, r = flattenRot w rows := by
  simp only [boardRotations] at hr
  have hmap : r ∈ piece.rotations.map (flattenRot w) := by
    by_cases hc : (piece.rotations.map (flattenRot w)).getD 0 0 =
        (piece.rotations.map (flattenRot w)).getD 2 0
    · rw [if_pos hc] at hr
      exact List.mem_of_mem_take hr
    · rw [if_neg hc] at hr
      exact hr
  obtain ⟨rows, hrows, hre⟩ := List.mem_map.mp hmap
  exact ⟨rows, hrows, hre.symm⟩

theorem bcount_flatten_le (N w : Nat) :
    ∀ (rows : List Nat) (idx : Nat), (∀ r ∈ rows, r < 16) →
      bcount N ((rows.enumFrom idx).foldl
        (fun s p => s ||| (p.2 <<< (2 * p.1 * w))) 0) ≤
      (rows.map (bcount 4)).sum := by
  intro rows
  induction rows with
  | nil =>
    intro idx _
    simp [bcount_zero]
  | cons r rest ih =>
    intro idx h16
    rw [List.enumFrom_cons, List.foldl_cons,
      foldl_or_eq_start (fun p : Nat × Nat => p.2 <<< (2 * p.1 * w)),
      Nat.zero_or, List.map_cons, List.sum_cons]
    refine le_trans (bcount_lor_le N _ _) ?_
    have hhd : bcount N (r <<< (2 * idx * w)) ≤ bcount 4 r := by
      refine le_trans (bcount_shiftLeft_le N r _) ?_
      exact bcount_mono_bound N 4 (h16 r (List.mem_cons_self _ _))
    have htl := ih (idx + 1) (fun r hr => h16 r (List.mem_cons_of_mem _ hr))
    exact Nat.add_le_add hhd htl

theorem bcount_flattenRot_le (N w : Nat) (rows : List Nat)
    (h16 : ∀ r ∈ rows, r < 16) :
    bcount N (flattenRot w rows) ≤ (rows.map (bcount 4)).sum :=
  bcount_flatten_le N w rows 0 h16

theorem rows_sum_tileCount :
    ∀ i, i < 5 → ∀ rows ∈ (pieces.getD i (mkPiece 0)).rotations,
      ((rows.map (bcount 4)).sum = (pieces.getD i (mkPiece 0)).tileCount ∧
        ∀ r ∈ rows, r < 16) := by
  decide

theorem bcount_moveFoot_le (w h : Nat) (coords : List (Nat × Nat)) (N : Nat)
    (mv : Move) (hi : mv.i < 5) :
    bcount N (moveFoot (mkPuzzle w h coords) mv) ≤ pieceCells mv.i := by
  rw [moveFoot]
  refine le_trans (bcount_shiftLeft_le N _ _) ?_
  have hbp : (mkPuzzle w h coords).pieces = boardPieces w := rfl
  rw [hbp, boardPieces_getD w mv.i hi]
  rcases Nat.lt_or_ge mv.j
      (boardRotations w (pieces.getD mv.i (mkPiece 0))).length with hj | hj
  · have hmem : (boardRotations w (pieces.getD mv.i (mkPiece 0))).getD mv.j 0 ∈
        boardRotations w (pieces.getD mv.i (mkPiece 0)) := by
      rw [List.getD_eq_getElem _ _ hj]
      exact List.getElem_mem hj
    obtain ⟨rows, hrows, hre⟩ := mem_boardRotations hmem
    rw [hre]
    obtain ⟨hsum, h16⟩ := rows_sum_tileCount mv.i hi rows hrows
    refine le_trans (bcount_flattenRot_le N w rows h16) ?_
    rw [hsum]
    exact Nat.le_refl _
  · rw [List.getD_eq_default _ _ hj, bcount_zero]
    exact Nat.zero_le _

theorem sum_pieceCells (sol : List Move) (hval : ∀ mv ∈ sol, mv.i < 5) :
    (sol.map (fun mv => pieceCells mv.i)).sum =
      countType sol 0 * pieceCells 0 + countType sol 1 * pieceCells 1 +
      countType sol 2 * pieceCells 2 + countType sol 3 * pieceCells 3 +
      countType sol 4 * pieceCells 4 := by
  induction sol with
  | nil => simp [countType]
  | cons mv rest ih =>
    have hmv := hval mv (List.mem_cons_self _ _)
    have hrest := ih (fun m hm => hval m (List.mem_cons_of_mem _ hm))
    simp only [List.map_cons, List.sum_cons, countType, List.countP_cons] at hrest ⊢
    have h5 : mv.i = 0 ∨ mv.i = 1 ∨ mv.i = 2 ∨ mv.i = 3 ∨ mv.i = 4 := by omega
    rcases h5 with hc | hc | hc | hc | hc <;>
      rw [hc] <;> simp only [beq_self_eq_true, if_pos, Nat.beq_eq_true_eq,
        show ∀ a b : Nat, a ≠ b → (a == b) = false from fun a b hab => by
          simp [hab]] <;>
      rw [hrest] <;> ring_nf <;> simp

theorem pieceCountTotal_eq (n0 n1 n2 n3 n4 : Nat) :
    pieceCountTotal [n0, n1, n2, n3, n4] =
      n0 * pieceCells 0 + n1 * pieceCells 1 + n2 * pieceCells 2 +
      n3 * pieceCells 3 + n4 * pieceCells 4 := by
  simp only [pieceCountTotal, pieceCells, List.enum, List.enumFrom, List.foldl]
  ring

theorem list_len5 {l : List Nat} (h : l.length = 5) :
    ∃ a b c d e, l = [a, b, c, d, e] := by
  rcases l with _ | ⟨a, l⟩
  · simp at h
  rcases l with _ | ⟨b, l⟩
  · simp at h
  rcases l with _ | ⟨c, l⟩
  · simp at h
  rcases l with _ | ⟨d, l⟩
  · simp at h
  rcases l with _ | ⟨e, l⟩
  · simp at h
  rcases l with _ | ⟨f, l⟩
  · exact ⟨a, b, c, d, e, rfl⟩
  · simp at h

/-! ### Claim C2: exact piece-count conformance -/

/-- Counterexample to claim C2 as stated, in both failure modes.  With
the argument omitted, the default preset `[2, 6, 4, 2, 2]` is used but
the fast-fail check is skipped and the leaf test does not require the
counters to be exhausted: on the full 2×2 board `solve()` returns a
solution with 0 moves of piece type 0 instead of 2.  And even with
explicit counts, a board whose coordinate list has an out-of-bounds entry
(here (0, 2)) yields a returned solution using 4 pieces of type 2 where 5
were requested. -/
theorem claim_C2_cex :
    (∃ sol ∈ (solve (mkPuzzle 2 2 [(0, 0), (1, 0), (0, 1), (1, 1)]) 100
        none).getD [],
      countType sol 0 ≠ defaultCounts.getD 0 0) ∧
    (∃ sol ∈ (solve (mkPuzzle 2 2 [(0, 0), (1, 0), (0, 1), (1, 1), (0, 2)]) 200
        (some [0, 0, 5, 0, 0])).getD [],
      countType sol 2 ≠ [0, 0, 5, 0, 0].getD 2 0) := by
  constructor
  · decide
  · decide

/-- Claim C2, amended: restricted to explicitly passed `pieceCounts`
(a 5-element vector) and to boards whose coordinate list is entirely in
bounds.  Then every Solution in the returned list uses exactly
`pieceCounts[i]` pieces of each type `i`: the fast-fail equation forces
the weighted piece total to equal the fine-cell count of the board, and
an exact disjoint cover can neither skip a requested piece nor use an
extra one. -/
theorem claim_C2_amended (w h fuel : Nat) (coords : List (Nat × Nat))
    (hin : ∀ c ∈ coords, c.1 < w ∧ c.2 < h)
    (counts : List Nat) (hlen : counts.length = 5)
    (sols : List (List Move))
    (hrun : solve (mkPuzzle w h coords) fuel (some counts) = some sols) :
    ∀ sol ∈ sols, ∀ i, i < 5 → countType sol i = counts.getD i 0 := by
  obtain ⟨n0, n1, n2, n3, n4, rfl⟩ := list_len5 hlen
  simp only [solve] at hrun
  by_cases hne : (mkPuzzle w h coords).tileCount ≠
      pieceCountTotal [n0, n1, n2, n3, n4]
  · rw [if_pos hne] at hrun
    cases hrun
    intro sol hmem
    exact absurd hmem (List.not_mem_nil sol)
  · rw [if_neg hne] at hrun
    have heq : (mkPuzzle w h coords).tileCount =
        pieceCountTotal [n0, n1, n2, n3, n4] := by omega
    rcases hrn : solve0 (mkPuzzle w h coords) fuel
        (SState.mk [n0, n1, n2, n3, n4] 0 [] []) 0 0 with _ | res
    · rw [hrn] at hrun
      exact absurd hrun (by simp)
    · rw [hrn] at hrun
      simp only [Option.map_some'] at hrun
      cases hrun
      intro sol hmem i hi
      obtain ⟨hcnt, hval5, hdisj, hsub, hall⟩ :=
        solve0_run_good _ _ fuel res hrn sol hmem
      have hval : ∀ mv ∈ sol, mv.i < 5 := by
        intro mv hm
        have hlt := (hval5 mv hm).1
        have hlen5 : (mkPuzzle w h coords).pieces.length = 5 := rfl
        omega
      have hcover := (run_cover_eq_mask w h fuel coords hin _ res hrn sol hmem).2
      obtain ⟨S, hSin, hSdist, hmask, htc⟩ := mkPuzzle_repr w h coords hin
      have hbc_mask : bcount (4 * w * h) (mkPuzzle w h coords).mask =
          (mkPuzzle w h coords).tileCount := by
        rw [hmask, htc]
        exact bcount_orGroups w h S hSin hSdist
      have hbc_cover := bcount_coverAll (mkPuzzle w h coords) (4 * w * h) sol hdisj
      have hfoot_le : (sol.map
            (fun mv => bcount (4 * w * h) (moveFoot (mkPuzzle w h coords) mv))).sum ≤
          (sol.map (fun mv => pieceCells mv.i)).sum :=
        List.sum_le_sum (fun mv hm => bcount_moveFoot_le w h coords _ mv (hval mv hm))
      have hgroup := sum_pieceCells sol hval
      have htotal := pieceCountTotal_eq n0 n1 n2 n3 n4
      have hcells0 : pieceCells 0 = 2 := by decide
      have hcells1 : pieceCells 1 = 3 := by decide
      have hcells2 : pieceCells 2 = 4 := by decide
      have hcells3 : pieceCells 3 = 4 := by decide
      have hcells4 : pieceCells 4 = 5 := by decide
      rw [hcells0, hcells1, hcells2, hcells3, hcells4] at hgroup htotal
      have hchain : (mkPuzzle w h coords).tileCount ≤
          countType sol 0 * 2 + countType sol 1 * 3 + countType sol 2 * 4 +
          countType sol 3 * 4 + countType sol 4 * 5 := by
        calc (mkPuzzle w h coords).tileCount
            = bcount (4 * w * h) (mkPuzzle w h coords).mask := hbc_mask.symm
          _ = bcount (4 * w * h) (coverAll (mkPuzzle w h coords) sol) := by
              rw [hcover]
          _ = (sol.map (fun mv =>
                bcount (4 * w * h) (moveFoot (mkPuzzle w h coords) mv))).sum :=
              hbc_cover
          _ ≤ (sol.map (fun mv => pieceCells mv.i)).sum := hfoot_le
          _ = _ := hgroup
      have hle0 : countType sol 0 ≤ n0 := hcnt 0
      have hle1 : countType sol 1 ≤ n1 := hcnt 1
      have hle2 : countType sol 2 ≤ n2 := hcnt 2
      have hle3 : countType sol 3 ≤ n3 := hcnt 3
      have hle4 : countType sol 4 ≤ n4 := hcnt 4
      rw [heq, htotal] at hchain
      have h5 : i = 0 ∨ i = 1 ∨ i = 2 ∨ i = 3 ∨ i = 4 := by omega
      rcases h5 with hc | hc | hc | hc | hc <;> subst hc
      · show countType sol 0 = n0
        omega
      · show countType sol 1 = n1
        omega
      · show countType sol 2 = n2
        omega
      · show countType sol 3 = n3
        omega
      · show countType sol 4 = n4
        omega

/-- Witness for the amended C2: the 2×2 tiling uses exactly the four
requested pieces of type 2 (and zero of every other type). -/
theorem claim_C2_amended_witness :
    countType [⟨0, 0, 2, 0⟩, ⟨0, 0, 2, 3⟩, ⟨1, 0, 2, 2⟩, ⟨0, 1, 2, 1⟩] 2 =
      [0, 0, 4, 0, 0].getD 2 0 :=
  claim_C2_amended 2 2 100 [(0, 0), (1, 0), (0, 1), (1, 1)] (by decide)
    [0, 0, 4, 0, 0] (by decide)
    [[⟨0, 0, 2, 0⟩, ⟨0, 0, 2, 3⟩, ⟨1, 0, 2, 2⟩, ⟨0, 1, 2, 1⟩]] (by decide)
    [⟨0, 0, 2, 0⟩, ⟨0, 0, 2, 3⟩, ⟨1, 0, 2, 2⟩, ⟨0, 1, 2, 1⟩] (by decide)
    2 (by decide)

/-! ### Claim C6: the re-entry resume discipline -/

/-- Counterexample to claim C6 as stated: rotations are claimed to resume
strictly after the latest move's rotation index.  In the code the loop
start is `sameCoords?.[2] === i ? sameCoords[3] : 0`, i.e. the rotation
index of the latest move itself.  With the latest move `(0, 0, 2, 1)`
(piece 2, rotation 1) at the same tile, the rotation enumeration for
piece 2 on a width-2 board is `range' 1 3 = [1, 2, 3]`, which contains
the already-tried rotation 1; the claimed strictly-after enumeration
`range' 2 2 = [2, 3]` does not. -/
theorem claim_C6_cex :
    resumeJ (some ⟨0, 0, 2, 1⟩) 2 = 1 ∧
    1 ∈ List.range' (resumeJ (some ⟨0, 0, 2, 1⟩) 2)
      (((boardPieces 2).getD 2 []).length - resumeJ (some ⟨0, 0, 2, 1⟩) 2) ∧
    1 ∉ List.range' (1 + 1) (((boardPieces 2).getD 2 []).length - (1 + 1)) := by
  refine ⟨by decide, by decide, by decide⟩

theorem rows_have_nonzero :
    ∀ i, i < 5 → ∀ rows ∈ (pieces.getD i (mkPiece 0)).rotations,
      ∃ p ∈ rows.enum, p.2 ≠ 0 := by
  decide

theorem flattenRot_ne_zero {w : Nat} {rows : List Nat}
    (hp : ∃ p ∈ rows.enum, p.2 ≠ 0) : flattenRot w rows ≠ 0 := by
  obtain ⟨p, hpm, hpne⟩ := hp
  intro h0
  have hsub := elem_sub_foldl_or (fun q : Nat × Nat => q.2 <<< (2 * q.1 * w))
      rows.enum 0 p hpm
  have hsub2 : p.2 <<< (2 * p.1 * w) &&& flattenRot w rows =
      p.2 <<< (2 * p.1 * w) := hsub
  rw [h0, Nat.and_zero] at hsub2
  rw [Nat.shiftLeft_eq] at hsub2
  rcases Nat.mul_eq_zero.mp hsub2.symm with h1 | h2
  · exact hpne h1
  · have := Nat.two_pow_pos (2 * p.1 * w)
    omega

theorem moveFoot_ne_zero {w h : Nat} {coords : List (Nat × Nat)} {mv : Move}
    (hi : mv.i < 5)
    (hj : mv.j < ((mkPuzzle w h coords).pieces.getD mv.i []).length) :
    moveFoot (mkPuzzle w h coords) mv ≠ 0 := by
  intro h0
  rw [moveFoot, Nat.shiftLeft_eq] at h0
  rcases Nat.mul_eq_zero.mp h0 with hrot | hpow
  · have hbp : (mkPuzzle w h coords).pieces = boardPieces w := rfl
    rw [hbp, boardPieces_getD w mv.i hi] at hrot hj
    have hmem : (boardRotations w (pieces.getD mv.i (mkPiece 0))).getD mv.j 0 ∈
        boardRotations w (pieces.getD mv.i (mkPiece 0)) := by
      rw [List.getD_eq_getElem _ _ hj]
      exact List.getElem_mem hj
    obtain ⟨rows, hrows, hre⟩ := mem_boardRotations hmem
    have hnz := flattenRot_ne_zero (w := w) (rows_have_nonzero mv.i hi rows hrows)
    rw [hre] at hrot
    exact hnz hrot
  · have := Nat.two_pow_pos
      (4 * mv.y * (mkPuzzle w h coords).width + 2 * mv.x)
    omega

/-- No recorded solution of a terminating top-level run contains the same
move — the same `(x, y, pieceType, rotation)` combination — twice. -/
theorem run_solutions_nodup (w h fuel : Nat) (coords : List (Nat × Nat))
    (counts : List Nat) (res : Bool × SState)
    (hrn : solve0 (mkPuzzle w h coords) fuel (SState.mk counts 0 [] []) 0 0 =
      some res) :
    ∀ sol ∈ res.2.solutions, sol.Pairwise (· ≠ ·) := by
  intro sol hmem
  obtain ⟨_, hval, hdisj, _, _⟩ :=
    solve0_run_good _ counts fuel res hrn sol hmem
  refine List.Pairwise.imp_of_mem ?_ hdisj
  intro a b ha hb hfoot heq
  subst heq
  rw [Nat.and_self] at hfoot
  have hia := hval a ha
  have hlen5 : (mkPuzzle w h coords).pieces.length = 5 := rfl
  exact moveFoot_ne_zero (by omega) hia.2 hfoot

/-- Claim C6, amended.  (1) On re-entry into the tile of the most
recently pushed move, enumeration of piece types resumes at that move's
piece type, and rotations within that piece type resume **at** that
move's rotation index — not strictly after it — while every other piece
type starts from rotation 0.  (2) The re-tried identical combination is
harmless: its footprint is already inside the coverage, so the overlap
guard rejects it without recursing or changing the state.  (3) Hence no
recorded solution of any run places the same (pieceType, rotation)
combination twice at the same tile: all moves of a solution are
distinct. -/
theorem claim_C6_amended :
    (∀ mv : Move, resumeI (some mv) = mv.i ∧ resumeJ (some mv) mv.i = mv.j ∧
      ∀ i2, i2 ≠ mv.i → resumeJ (some mv) i2 = 0) ∧
    (∀ (P : Puzzle) (rec : SState → Option (Bool × SState)) (st : SState)
        (mv : Move), mv ∈ st.moves → st.s = coverAll P st.moves →
        moveFoot P mv ≠ 0 →
        tryPlace rec P mv.x mv.y mv.i mv.j st = some st) ∧
    (∀ (w h fuel : Nat) (coords : List (Nat × Nat)) (counts : List Nat)
        (res : Bool × SState),
        solve0 (mkPuzzle w h coords) fuel (SState.mk counts 0 [] []) 0 0 =
          some res →
        ∀ sol ∈ res.2.solutions, sol.Pairwise (· ≠ ·)) := by
  refine ⟨?_, ?_, ?_⟩
  · intro mv
    refine ⟨rfl, ?_, ?_⟩
    · simp [resumeJ]
    · intro i2 hne
      simp only [resumeJ]
      rw [if_neg (fun hc => hne hc.symm)]
  · intro P rec st mv hmem hs hnz
    have hsub := foot_sub_coverAll P hmem
    rw [← hs] at hsub
    have hguard : st.s &&& moveFoot P ⟨mv.x, mv.y, mv.i, mv.j⟩ ≠ 0 := by
      have hmv : (⟨mv.x, mv.y, mv.i, mv.j⟩ : Move) = mv := rfl
      rw [hmv, Nat.land_comm, hsub]
      exact hnz
    simp only [tryPlace]
    rw [if_pos hguard]
  · intro w h fuel coords counts res hrn
    exact run_solutions_nodup w h fuel coords counts res hrn

/-- Witness for the amended C6 at concrete inputs: the resume indices for
the move `(0, 0, 2, 1)`, the rejected re-try of the placed piece
`(0, 0, 2, 0)` on the full 2×2 board, and the duplicate-freeness of the
recorded 2×2 tiling. -/
theorem claim_C6_amended_witness :
    resumeI (some ⟨0, 0, 2, 1⟩) = 2 ∧
    tryPlace (fun _ => none) (mkPuzzle 2 2 [(0, 0), (1, 0), (0, 1), (1, 1)])
        0 0 2 0
        (SState.mk [0, 0, 3, 0, 0]
          (coverAll (mkPuzzle 2 2 [(0, 0), (1, 0), (0, 1), (1, 1)])
            [⟨0, 0, 2, 0⟩]) [⟨0, 0, 2, 0⟩] []) =
      some (SState.mk [0, 0, 3, 0, 0]
        (coverAll (mkPuzzle 2 2 [(0, 0), (1, 0), (0, 1), (1, 1)])
          [⟨0, 0, 2, 0⟩]) [⟨0, 0, 2, 0⟩] []) ∧
    List.Pairwise (· ≠ ·)
      [(⟨0, 0, 2, 0⟩ : Move), ⟨0, 0, 2, 3⟩, ⟨1, 0, 2, 2⟩, ⟨0, 1, 2, 1⟩] :=
  ⟨(claim_C6_amended.1 ⟨0, 0, 2, 1⟩).1,
   claim_C6_amended.2.1 (mkPuzzle 2 2 [(0, 0), (1, 0), (0, 1), (1, 1)])
     (fun _ => none)
     (SState.mk [0, 0, 3, 0, 0]
       (coverAll (mkPuzzle 2 2 [(0, 0), (1, 0), (0, 1), (1, 1)])
         [⟨0, 0, 2, 0⟩]) [⟨0, 0, 2, 0⟩] []) ⟨0, 0, 2, 0⟩
     (by decide) rfl (by decide),
   claim_C6_amended.2.2 2 2 100 [(0, 0), (1, 0), (0, 1), (1, 1)]
     [0, 0, 4, 0, 0]
     (false, SState.mk [0, 0, 4, 0, 0] 0 []
       [[⟨0, 0, 2, 0⟩, ⟨0, 0, 2, 3⟩, ⟨1, 0, 2, 2⟩, ⟨0, 1, 2, 1⟩]])
     (by decide)
     [⟨0, 0, 2, 0⟩, ⟨0, 0, 2, 3⟩, ⟨1, 0, 2, 2⟩, ⟨0, 1, 2, 1⟩] (by decide)⟩

end KKP
